import Mathlib

/-!
# The glyph buffer of `harfbuzz-buffer.c`

A shallow embedding of the buffer operations of `src/src/harfbuzz-buffer.c`.

* The three glyph array pointers `in_string`, `out_string`, `alt_string` are
  modelled as addresses into an explicit memory `mem` of array blocks, so that
  aliasing between them is a fact about the state and not an assumption.
* Every function that can return `HB_Err_Out_Of_Memory` takes the outcome of
  each allocator request it makes as an argument.
* An access outside a live array has no defined behaviour in C; the embedding
  returns `Res.undefined` there and nothing is claimed about such a call.
* The counters (`allocated`, `in_length`, `out_length`, `in_pos`, `out_pos`)
  are natural numbers.  `hb_buffer_swap` moves a length and a cursor through
  temporaries of type `int`; the two conversions are explicit
  (`int_of_FT_ULong`, `FT_ULong_of_int`): a value below `2 ^ 31` comes back
  as it was, `2 ^ 31` comes back as `2 ^ 64 - 2 ^ 31`.  A cursor reaches
  `2 ^ 31` on small arrays.  A length needs arrays of `2 ^ 31` cells: a
  sequence of calls is followed up to a `hb_buffer_swap` on that many input
  glyphs and no further (`Op.run`).  The 16-bit quantities
  (`FT_UShort`) wrap explicitly where the code converts or increments them.
* The headers declaring the records, the constants and the allocation macros
  are not part of the sources at hand; what the embedding takes from them is
  marked at the definition concerned.
-/

namespace HB

/-! ## Data model -/

/-- The glyph record `HB_GlyphItemRec`, with the six fields the buffer code
assigns: `gindex`, `properties`, `cluster` (`FT_UInt`) and `component`,
`ligID`, `gproperties` (`FT_UShort`). -/
structure HB_GlyphItemRec where
  gindex : Nat
  properties : Nat
  cluster : Nat
  component : Nat
  ligID : Nat
  gproperties : Nat
deriving DecidableEq, Repr

/-- Modelled from the spec: `HB_PositionRec` (declared in a header that is not
part of the sources at hand), "geometric adjustment record (advance and offset
deltas) for one glyph". -/
structure HB_PositionRec where
  x_advance : Int
  y_advance : Int
  x_pos : Int
  y_pos : Int
deriving DecidableEq, Repr

/-- The record `memset (.., 0, ..)` leaves in a position cell. -/
def HB_PositionRec.zero : HB_PositionRec := ⟨0, 0, 0, 0⟩

/-- Modelled from the spec: the constant `HB_GLYPH_PROPERTIES_UNKNOWN` (its
definition is in a header that is not part of the sources at hand), the
"unknown" value of `computed_class`. -/
def HB_GLYPH_PROPERTIES_UNKNOWN : Nat := 0xFFFF

/-- Conversion of an unsigned value to `FT_UShort` (16 bits). -/
def toUShort (x : Nat) : Nat := x % 65536

/-- A pointer to a glyph array: `none` is `NULL`, `some a` is the address of a block. -/
abbrev Ptr := Option Nat

/-- Memory holding the glyph arrays: address `a` is a live array (`some cells`)
or has been released (`none`).  Addresses at or beyond the length were never
handed out. -/
abbrev Mem := List (Option (List HB_GlyphItemRec))

/-- The live array a pointer refers to, if any. -/
def Mem.block (m : Mem) (p : Ptr) : Option (List HB_GlyphItemRec) :=
  match p with
  | none => none
  | some a =>
    match m[a]? with
    | some (some cells) => some cells
    | _ => none

/-- The expression `p[i]` read as a value; `none` when the access is outside a live array. -/
def Mem.read (m : Mem) (p : Ptr) (i : Nat) : Option HB_GlyphItemRec :=
  match m.block p with
  | some cells => cells[i]?
  | none => none

/-- The assignment `p[i] = g`; `none` when the access is outside a live array. -/
def Mem.write (m : Mem) (p : Ptr) (i : Nat) (g : HB_GlyphItemRec) : Option Mem :=
  match p with
  | none => none
  | some a =>
    match m.block (some a) with
    | some cells => if i < cells.length then some (m.set a (some (cells.set i g))) else none
    | none => none

/-- The outcome of one allocator request: whether it succeeds and, when it
does, the value found in the cells it hands out without initialising them from
an older array. -/
structure Alloc (α : Type) where
  ok : Bool
  fresh : α

/-- Result of a buffer function returning `HB_Error`. -/
inductive Res (α : Type) where
  /-- The function returned `HB_Err_Ok`. -/
  | ok (a : α)
  /-- The function returned an allocation error and left the state `a` behind. -/
  | error (a : α)
  /-- The function accessed memory outside a live array; also what `Op.run`
  gives for a call it does not follow. -/
  | undefined
deriving Repr

/-- An array of `count` cells resized from `cells`: the common prefix is kept,
new cells hold `fresh`. -/
def resized {α : Type} (cells : List α) (count : Nat) (fresh : α) : List α :=
  cells.take count ++ List.replicate (count - cells.length) fresh

/-- Modelled from the spec: the macro `ALLOC_ARRAY( ptr, count, type )` of
`harfbuzz-impl.h` (not part of the sources at hand) on a glyph array: a request
for zero cells yields `NULL` without error, otherwise a new array on success
and `none` (the macro evaluates to true and the caller returns `error`) on
failure. -/
def ALLOC_ARRAY (m : Mem) (count : Nat) (o : Alloc HB_GlyphItemRec) : Option (Mem × Ptr) :=
  if count = 0 then some (m, none)
  else if o.ok then some (m ++ [some (List.replicate count o.fresh)], some m.length)
  else none

/-- Modelled from the spec: the macro `REALLOC_ARRAY( ptr, count, type )` of
`harfbuzz-impl.h` (not part of the sources at hand) on a glyph array.  On
success the cells move to a new array of `count` cells and the old array is
released; on failure memory and pointer are untouched.  Resizing a pointer
that is neither `NULL` nor a live array is undefined. -/
def REALLOC_ARRAY (m : Mem) (p : Ptr) (count : Nat) (o : Alloc HB_GlyphItemRec) :
    Res (Mem × Ptr) :=
  match p with
  | none =>
    if o.ok then .ok (m ++ [some (List.replicate count o.fresh)], some m.length)
    else .error (m, none)
  | some a =>
    match m.block (some a) with
    | none => .undefined
    | some cells =>
      if o.ok then .ok ((m.set a none) ++ [some (resized cells count o.fresh)], some m.length)
      else .error (m, some a)

/-- The call `memcpy (dst, src, n * sizeof (cell))`; copying zero cells touches nothing. -/
def memcpy (m : Mem) (dst src : Ptr) (n : Nat) : Option Mem :=
  if n = 0 then some m
  else
    match dst, m.block dst, m.block src with
    | some a, some d, some s =>
      if n ≤ d.length ∧ n ≤ s.length then some (m.set a (some (s.take n ++ d.drop n))) else none
    | _, _, _ => none

/-- The buffer record `HB_BufferRec` together with the memory its pointers refer to.
`positions` is never aliased, so the array is kept in place of its pointer
(`none` is `NULL`). -/
structure HB_BufferRec where
  allocated : Nat
  in_length : Nat
  out_length : Nat
  in_pos : Nat
  out_pos : Nat
  separate_out : Bool
  in_string : Ptr
  out_string : Ptr
  alt_string : Ptr
  positions : Option (List HB_PositionRec)
  max_ligID : Nat
  mem : Mem
deriving Repr

/-- The allocator outcomes for the three `REALLOC_ARRAY` requests of `hb_buffer_ensure`. -/
structure EnsureAlloc where
  positions : Alloc HB_PositionRec
  in_string : Alloc HB_GlyphItemRec
  alt_string : Alloc HB_GlyphItemRec

/-- The input glyph `in_string[i]`. -/
def HB_BufferRec.inGlyph (b : HB_BufferRec) (i : Nat) : Option HB_GlyphItemRec :=
  b.mem.read b.in_string i

/-- The output glyph `out_string[i]`. -/
def HB_BufferRec.outGlyph (b : HB_BufferRec) (i : Nat) : Option HB_GlyphItemRec :=
  b.mem.read b.out_string i

/-- The array behind `alt_string`, cell `i`. -/
def HB_BufferRec.altGlyph (b : HB_BufferRec) (i : Nat) : Option HB_GlyphItemRec :=
  b.mem.read b.alt_string i

/-! ## The buffer functions -/

/-- The loop `while (size > new_allocated) new_allocated += (new_allocated >> 1) + 8;`
run for at most `fuel` iterations. -/
def growLoop : Nat → Nat → Nat → Nat
  | 0, _, new_allocated => new_allocated
  | fuel + 1, size, new_allocated =>
    if size > new_allocated then growLoop fuel size (new_allocated + ((new_allocated >>> 1) + 8))
    else new_allocated

/-- The value of `new_allocated` after the loop of `hb_buffer_ensure`; `size`
iterations are always enough (`growLoop_ge`). -/
def grow (size allocated : Nat) : Nat := growLoop size size allocated

/-- The part of `hb_buffer_ensure` that resizes the glyph arrays (from the
`REALLOC_ARRAY` of `in_string` to the assignment of `allocated`). -/
def ensureStrings (buffer : HB_BufferRec) (new_allocated : Nat) (a : EnsureAlloc) :
    Res HB_BufferRec :=
  match REALLOC_ARRAY buffer.mem buffer.in_string new_allocated a.in_string with
  | .undefined => .undefined
  | .error _ => .error buffer
  | .ok (mem, p) =>
    let buffer := { buffer with mem := mem, in_string := p }
    if buffer.separate_out then
      match REALLOC_ARRAY buffer.mem buffer.alt_string new_allocated a.alt_string with
      | .undefined => .undefined
      | .error _ => .error buffer
      | .ok (mem, p) =>
        let buffer := { buffer with mem := mem, alt_string := p }
        let buffer := { buffer with out_string := buffer.alt_string }
        .ok { buffer with allocated := new_allocated }
    else
      let buffer := { buffer with out_string := buffer.in_string }
      if buffer.alt_string ≠ none then
        match REALLOC_ARRAY buffer.mem buffer.alt_string new_allocated a.alt_string with
        | .undefined => .undefined
        | .error _ => .error buffer
        | .ok (mem, p) =>
          .ok { buffer with mem := mem, alt_string := p, allocated := new_allocated }
      else
        .ok { buffer with allocated := new_allocated }

/-- The function `hb_buffer_ensure`. -/
def hb_buffer_ensure (buffer : HB_BufferRec) (size : Nat) (a : EnsureAlloc) : Res HB_BufferRec :=
  if size > buffer.allocated then
    let new_allocated := grow size buffer.allocated
    match buffer.positions with
    | some cells =>
      if a.positions.ok then
        ensureStrings { buffer with positions := some (resized cells new_allocated a.positions.fresh) }
          new_allocated a
      else .error buffer
    | none => ensureStrings buffer new_allocated a
  else
    .ok buffer

/-- The function `hb_buffer_duplicate_out_buffer`. -/
def hb_buffer_duplicate_out_buffer (buffer : HB_BufferRec) (d : Alloc HB_GlyphItemRec) :
    Res HB_BufferRec :=
  match (if buffer.alt_string = none then ALLOC_ARRAY buffer.mem buffer.allocated d
         else some (buffer.mem, buffer.alt_string)) with
  | none => .error buffer
  | some (mem, alt) =>
    let buffer := { buffer with mem := mem, alt_string := alt }
    let buffer := { buffer with out_string := buffer.alt_string }
    match memcpy buffer.mem buffer.out_string buffer.in_string buffer.out_length with
    | none => .undefined
    | some mem => .ok { buffer with mem := mem, separate_out := true }

/-- The buffer `hb_buffer_new` stores through its argument (the allocation of
the record itself succeeding). -/
def hb_buffer_new : HB_BufferRec :=
  { in_length := 0, out_length := 0, allocated := 0, in_pos := 0, out_pos := 0,
    separate_out := false, in_string := none, out_string := none, alt_string := none,
    positions := none, max_ligID := 0, mem := [] }

/-- The function `hb_buffer_clear_positions`; `p` is the outcome of its `ALLOC_ARRAY`
request (zero cells yield `NULL` without error, as for glyph arrays). -/
def hb_buffer_clear_positions (buffer : HB_BufferRec) (p : Alloc HB_PositionRec) :
    Res HB_BufferRec :=
  match (match buffer.positions with
         | some cells => some (some cells)
         | none =>
           if buffer.allocated = 0 then some none
           else if p.ok then some (some (List.replicate buffer.allocated p.fresh))
           else none) with
  | none => .error buffer
  | some positions =>
    let buffer := { buffer with positions := positions }
    if buffer.in_length = 0 then .ok buffer
    else
      match buffer.positions with
      | none => .undefined
      | some cells =>
        if buffer.in_length ≤ cells.length then
          .ok { buffer with
                positions := some (List.replicate buffer.in_length HB_PositionRec.zero
                                   ++ cells.drop buffer.in_length) }
        else .undefined

/-- The function `hb_buffer_clear_output`. -/
def hb_buffer_clear_output (buffer : HB_BufferRec) : HB_BufferRec :=
  { buffer with out_length := 0, out_pos := 0, out_string := buffer.in_string,
                separate_out := false }

/-- Modelled from the spec: the counters of the buffer record (declared in a
header that is not part of the sources at hand) are `FT_ULong`, the type
`hb_buffer_ensure` gives to `size` and `new_allocated`; `FT_ULong` is
`unsigned long`, 64 bits wide on the LP64 platforms, where `int` has 32 bits.
This is the conversion of such a counter to `int`, as in
`tmp_pos = buffer->in_pos`: the low 32 bits, read in two's complement. -/
def int_of_FT_ULong (x : Nat) : Int :=
  if x % 4294967296 < 2147483648 then Int.ofNat (x % 4294967296)
  else Int.ofNat (x % 4294967296) - 4294967296

/-- The conversion of an `int` to `FT_ULong` (see `int_of_FT_ULong` for the
widths), as in `buffer->out_pos = tmp_pos`: the value modulo `2 ^ 64`. -/
def FT_ULong_of_int (i : Int) : Nat := (i % 18446744073709551616).toNat

/-- The function `hb_buffer_swap`.  The array pointers are exchanged through a
temporary of their own type, the lengths and the cursors through the `int`
temporaries `tmp_length` and `tmp_pos`. -/
def hb_buffer_swap (buffer : HB_BufferRec) : HB_BufferRec :=
  let buffer :=
    if buffer.separate_out then
      let tmp_string := buffer.in_string
      let buffer := { buffer with in_string := buffer.out_string }
      let buffer := { buffer with out_string := tmp_string }
      { buffer with alt_string := buffer.out_string }
    else buffer
  let tmp_length : Int := int_of_FT_ULong buffer.in_length
  let buffer := { buffer with in_length := buffer.out_length }
  let buffer := { buffer with out_length := FT_ULong_of_int tmp_length }
  let tmp_pos : Int := int_of_FT_ULong buffer.in_pos
  let buffer := { buffer with in_pos := buffer.out_pos }
  { buffer with out_pos := FT_ULong_of_int tmp_pos }

/-- The function `hb_buffer_clear`. -/
def hb_buffer_clear (buffer : HB_BufferRec) : HB_BufferRec :=
  { buffer with in_length := 0, out_length := 0, in_pos := 0, out_pos := 0,
                out_string := buffer.in_string, separate_out := false }

/-- The function `hb_buffer_add_glyph`. -/
def hb_buffer_add_glyph (buffer : HB_BufferRec) (glyph_index properties cluster : Nat)
    (a : EnsureAlloc) : Res HB_BufferRec :=
  match hb_buffer_ensure buffer (buffer.in_length + 1) a with
  | .undefined => .undefined
  | .error b => .error b
  | .ok buffer =>
    match buffer.mem.write buffer.in_string buffer.in_length
        { gindex := glyph_index, properties := properties, cluster := cluster,
          component := 0, ligID := 0, gproperties := HB_GLYPH_PROPERTIES_UNKNOWN } with
    | none => .undefined
    | some mem => .ok { buffer with mem := mem, in_length := buffer.in_length + 1 }

/-- The loop `for ( i = 0; i < num_out; i++ )` of `hb_buffer_add_output_glyphs`,
from index `i` with `n` iterations left: it fills `out_string[out_pos + i]` from
`glyph_data[i]` and the four values read before the loop. -/
def outputLoop (out_string : Ptr) (out_pos : Nat) (glyph_data : List Nat)
    (properties cluster component ligID : Nat) : Nat → Nat → Mem → Option Mem
  | 0, _, mem => some mem
  | n + 1, i, mem =>
    match glyph_data[i]? with
    | none => none
    | some g =>
      match mem.write out_string (out_pos + i)
          { gindex := g, properties := properties, cluster := cluster,
            component := component, ligID := ligID,
            gproperties := HB_GLYPH_PROPERTIES_UNKNOWN } with
      | none => none
      | some mem => outputLoop out_string out_pos glyph_data properties cluster component ligID
                      n (i + 1) mem

/-- The function `hb_buffer_add_output_glyphs`; `d` is the outcome of the
`ALLOC_ARRAY` request of `hb_buffer_duplicate_out_buffer`.  The arguments are
values of their C types (`FT_UShort` for the counts, the glyph data, `component`
and `ligID`). -/
def hb_buffer_add_output_glyphs (buffer : HB_BufferRec) (num_in num_out : Nat)
    (glyph_data : List Nat) (component ligID : Nat) (a : EnsureAlloc)
    (d : Alloc HB_GlyphItemRec) : Res HB_BufferRec :=
  match hb_buffer_ensure buffer (buffer.out_pos + num_out) a with
  | .undefined => .undefined
  | .error b => .error b
  | .ok buffer =>
    match (if buffer.separate_out = false then hb_buffer_duplicate_out_buffer buffer d
           else .ok buffer) with
    | .undefined => .undefined
    | .error b => .error b
    | .ok buffer =>
      match buffer.mem.read buffer.in_string buffer.in_pos with
      | none => .undefined
      | some cur =>
        let properties := cur.properties
        let cluster := cur.cluster
        let component := if component = 0xFFFF then cur.component else component
        let ligID := if ligID = 0xFFFF then cur.ligID else ligID
        match outputLoop buffer.out_string buffer.out_pos glyph_data properties cluster
                component ligID num_out 0 buffer.mem with
        | none => .undefined
        | some mem =>
          let buffer := { buffer with mem := mem, in_pos := buffer.in_pos + num_in }
          let buffer := { buffer with out_pos := buffer.out_pos + num_out }
          .ok { buffer with out_length := buffer.out_pos }

/-- The function `hb_buffer_add_output_glyph`: `glyph_index` (`FT_UInt`) is
converted to the `FT_UShort` variable `glyph_data`. -/
def hb_buffer_add_output_glyph (buffer : HB_BufferRec) (glyph_index component ligID : Nat)
    (a : EnsureAlloc) (d : Alloc HB_GlyphItemRec) : Res HB_BufferRec :=
  let glyph_data := toUShort glyph_index
  hb_buffer_add_output_glyphs buffer 1 1 [glyph_data] component ligID a d

/-- The function `hb_buffer_copy_output_glyph`. -/
def hb_buffer_copy_output_glyph (buffer : HB_BufferRec) (a : EnsureAlloc) : Res HB_BufferRec :=
  match hb_buffer_ensure buffer (buffer.out_pos + 1) a with
  | .undefined => .undefined
  | .error b => .error b
  | .ok buffer =>
    match (if buffer.separate_out then
             match buffer.mem.read buffer.in_string buffer.in_pos with
             | none => none
             | some g => buffer.mem.write buffer.out_string buffer.out_pos g
           else some buffer.mem) with
    | none => .undefined
    | some mem =>
      let buffer := { buffer with mem := mem, in_pos := buffer.in_pos + 1 }
      let buffer := { buffer with out_pos := buffer.out_pos + 1 }
      .ok { buffer with out_length := buffer.out_pos }

/-- The function `hb_buffer_replace_output_glyph`. -/
def hb_buffer_replace_output_glyph (buffer : HB_BufferRec) (glyph_index : Nat)
    (inplace : Bool) (a : EnsureAlloc) (d : Alloc HB_GlyphItemRec) : Res HB_BufferRec :=
  if inplace then
    match hb_buffer_copy_output_glyph buffer a with
    | .undefined => .undefined
    | .error b => .error b
    | .ok buffer =>
      match buffer.mem.read buffer.out_string (buffer.out_pos - 1) with
      | none => .undefined
      | some g =>
        match buffer.mem.write buffer.out_string (buffer.out_pos - 1)
            { g with gindex := glyph_index } with
        | none => .undefined
        | some mem => .ok { buffer with mem := mem }
  else
    hb_buffer_add_output_glyph buffer glyph_index 0xFFFF 0xFFFF a d

/-- The function `hb_buffer_allocate_ligid`: the value of `++buffer->max_ligID`
(an `FT_UShort`) and the buffer after the increment. -/
def hb_buffer_allocate_ligid (buffer : HB_BufferRec) : Nat × HB_BufferRec :=
  let buffer := { buffer with max_ligID := toUShort (buffer.max_ligID + 1) }
  (buffer.max_ligID, buffer)

/-! ## Sequences of calls -/

/-- A call of one of the public functions, with its arguments and the outcomes
of the allocator requests it may make. -/
inductive Op where
  | add_glyph (glyph_index properties cluster : Nat) (a : EnsureAlloc)
  | add_output_glyphs (num_in num_out : Nat) (glyph_data : List Nat) (component ligID : Nat)
      (a : EnsureAlloc) (d : Alloc HB_GlyphItemRec)
  | add_output_glyph (glyph_index component ligID : Nat) (a : EnsureAlloc)
      (d : Alloc HB_GlyphItemRec)
  | copy_output_glyph (a : EnsureAlloc)
  | replace_output_glyph (glyph_index : Nat) (inplace : Bool) (a : EnsureAlloc)
      (d : Alloc HB_GlyphItemRec)
  | swap
  | clear_output
  | clear
  | clear_positions (p : Alloc HB_PositionRec)
  | allocate_ligid

/-- The effect of one call on the buffer.  A call of `hb_buffer_swap` on
`2 ^ 31` input glyphs or more is not followed: its `int` temporary does not
hold that length, and what it stores in `out_length` no longer counts cells of
the output array. -/
def Op.run (buffer : HB_BufferRec) : Op → Res HB_BufferRec
  | .add_glyph g p c a => hb_buffer_add_glyph buffer g p c a
  | .add_output_glyphs k m ids c l a d => hb_buffer_add_output_glyphs buffer k m ids c l a d
  | .add_output_glyph g c l a d => hb_buffer_add_output_glyph buffer g c l a d
  | .copy_output_glyph a => hb_buffer_copy_output_glyph buffer a
  | .replace_output_glyph g i a d => hb_buffer_replace_output_glyph buffer g i a d
  | .swap =>
    if buffer.in_length < 2147483648 then .ok (hb_buffer_swap buffer) else .undefined
  | .clear_output => .ok (hb_buffer_clear_output buffer)
  | .clear => .ok (hb_buffer_clear buffer)
  | .clear_positions p => hb_buffer_clear_positions buffer p
  | .allocate_ligid => .ok (hb_buffer_allocate_ligid buffer).2

/-- The buffer a call leaves behind, whether it returned `HB_Err_Ok` or an
allocation error; `none` when the call has no defined behaviour or is not
followed. -/
def Res.state {α : Type} : Res α → Option α
  | .ok a => some a
  | .error a => some a
  | .undefined => none

/-- The buffer after a sequence of calls, each starting from what the previous
one left behind. -/
def runOps (buffer : HB_BufferRec) : List Op → Option HB_BufferRec
  | [] => some buffer
  | op :: ops =>
    match (op.run buffer).state with
    | none => none
    | some b => runOps b ops

/-- A buffer state that some sequence of public calls produces from a new buffer. -/
def Reachable (b : HB_BufferRec) : Prop := ∃ ops, runOps hb_buffer_new ops = some b

/-- An allocator outcome: success, with zeroed cells. -/
def allocOk : Alloc HB_GlyphItemRec := ⟨true, ⟨0, 0, 0, 0, 0, 0⟩⟩

/-- An allocator outcome: failure. -/
def allocFail : Alloc HB_GlyphItemRec := ⟨false, ⟨0, 0, 0, 0, 0, 0⟩⟩

/-- Every request of `hb_buffer_ensure` succeeds. -/
def ensureOk : EnsureAlloc := ⟨⟨true, HB_PositionRec.zero⟩, allocOk, allocOk⟩

/-- The cells of the array a pointer refers to (no cells for `NULL` or a released array). -/
def Mem.cells (m : Mem) (p : Ptr) : List HB_GlyphItemRec := (m.block p).getD []

/-- The pointer refers to a live array of at least `n` cells. -/
def Mem.capOk (m : Mem) (p : Ptr) (n : Nat) : Prop :=
  ∃ cells, m.block p = some cells ∧ n ≤ cells.length

/-- The representation invariant of the buffer: capacity bounds the lengths,
`out_string` is the array `separate_out` says it is, the arrays that exist are
live, distinct and hold at least `allocated` cells. -/
structure WF (b : HB_BufferRec) : Prop where
  in_le : b.in_length ≤ b.allocated
  out_le : b.out_length ≤ b.allocated
  out_eq : b.out_string = if b.separate_out then b.alt_string else b.in_string
  in_null : b.in_string = none ↔ b.allocated = 0
  in_cap : b.in_string ≠ none → b.mem.capOk b.in_string b.allocated
  alt_cap : b.alt_string ≠ none → b.mem.capOk b.alt_string b.allocated
  alt_ne : b.alt_string ≠ none → b.alt_string ≠ b.in_string
  sep_alt : b.separate_out = true → b.alt_string ≠ none
  alt_pos : b.alt_string ≠ none → 0 < b.allocated
  pos_cap : ∀ cells, b.positions = some cells → b.allocated ≤ cells.length

/-- One call of a pass that rewrites glyphs one for one in place: `copy_glyph`
(`glyph = none`) or `replace_glyph` with `inplace = TRUE` (`glyph = some g`),
with the allocator outcomes the call may consult. -/
structure PassCall where
  glyph : Option Nat
  a : EnsureAlloc
  d : Alloc HB_GlyphItemRec

/-- The public call a pass call stands for. -/
def PassCall.op (c : PassCall) : Op :=
  match c.glyph with
  | none => .copy_output_glyph c.a
  | some g => .replace_output_glyph g true c.a c.d

/-- The glyph a pass call is expected to leave in the output for the input glyph `g`. -/
def PassCall.result (c : PassCall) (g : HB_GlyphItemRec) : HB_GlyphItemRec :=
  match c.glyph with
  | none => g
  | some gi => { g with gindex := gi }

/-- A pass: the calls are made in order for as long as they return `HB_Err_Ok`. -/
def runPass (buffer : HB_BufferRec) : List PassCall → Res HB_BufferRec
  | [] => .ok buffer
  | c :: cs =>
    match c.op.run buffer with
    | .ok b => runPass b cs
    | r => r

/-- A glyph as `hb_buffer_add_glyph` stores it, with `properties = 0`. -/
def inputGlyph (gindex cluster : Nat) : HB_GlyphItemRec :=
  ⟨gindex, 0, cluster, 0, 0, HB_GLYPH_PROPERTIES_UNKNOWN⟩

/-- The cell contents handed out by `allocOk`. -/
def zeroGlyph : HB_GlyphItemRec := ⟨0, 0, 0, 0, 0, 0⟩

/-- The calls appending the glyphs `10, 11, 12` with clusters `0, 1, 2`. -/
def appendThree : List Op :=
  [.add_glyph 10 0 0 ensureOk, .add_glyph 11 0 1 ensureOk, .add_glyph 12 0 2 ensureOk]

/-- The buffer after `appendThree` on a new buffer. -/
def threeGlyphs : HB_BufferRec :=
  { allocated := 8, in_length := 3, out_length := 0, in_pos := 0, out_pos := 0,
    separate_out := false, in_string := some 0, out_string := some 0, alt_string := none,
    positions := none, max_ligID := 0,
    mem := [some (inputGlyph 10 0 :: inputGlyph 11 1 :: inputGlyph 12 2 ::
                  List.replicate 5 zeroGlyph)] }

/-- The buffer after `hb_buffer_add_output_glyphs (2, 1, [55], 0xFFFF, 1)` on
`threeGlyphs`: the first two glyphs are merged into glyph `55`. -/
def ligatureFormed : HB_BufferRec :=
  { allocated := 8, in_length := 3, out_length := 1, in_pos := 2, out_pos := 1,
    separate_out := true, in_string := some 0, out_string := some 1, alt_string := some 1,
    positions := none, max_ligID := 0,
    mem := [some (inputGlyph 10 0 :: inputGlyph 11 1 :: inputGlyph 12 2 ::
                  List.replicate 5 zeroGlyph),
            some (⟨55, 0, 0, 0, 1, HB_GLYPH_PROPERTIES_UNKNOWN⟩ :: List.replicate 7 zeroGlyph)] }

/-- The buffer after one `hb_buffer_copy_output_glyph` on `threeGlyphs`. -/
def oneCopied : HB_BufferRec :=
  { threeGlyphs with in_pos := 1, out_pos := 1, out_length := 1 }

/-- The buffer after `hb_buffer_add_output_glyphs (1, 2, [21, 22], 3, 0xFFFF)` on
`oneCopied`: the second glyph is decomposed into two glyphs of component `3`. -/
def decomposed : HB_BufferRec :=
  { allocated := 8, in_length := 3, out_length := 3, in_pos := 2, out_pos := 3,
    separate_out := true, in_string := some 0, out_string := some 1, alt_string := some 1,
    positions := none, max_ligID := 0,
    mem := [some (inputGlyph 10 0 :: inputGlyph 11 1 :: inputGlyph 12 2 ::
                  List.replicate 5 zeroGlyph),
            some (inputGlyph 10 0 :: ⟨21, 0, 1, 3, 0, HB_GLYPH_PROPERTIES_UNKNOWN⟩ ::
                  ⟨22, 0, 1, 3, 0, HB_GLYPH_PROPERTIES_UNKNOWN⟩ :: List.replicate 5 zeroGlyph)] }

/-- The buffer after appending glyphs `10` and `11`, one `hb_buffer_copy_output_glyph`
and `hb_buffer_clear_output`: the output is empty again, `in_pos` is still `1`. -/
def outputCleared : HB_BufferRec :=
  { allocated := 8, in_length := 2, out_length := 0, in_pos := 1, out_pos := 0,
    separate_out := false, in_string := some 0, out_string := some 0, alt_string := none,
    positions := none, max_ligID := 0,
    mem := [some (inputGlyph 10 0 :: inputGlyph 11 1 :: List.replicate 6 zeroGlyph)] }

/-- The buffer after one `hb_buffer_copy_output_glyph` on `ligatureFormed`:
glyph `12` is copied behind the ligature. -/
def ligatureThenCopy : HB_BufferRec :=
  { ligatureFormed with
    in_pos := 3, out_pos := 2, out_length := 2,
    mem := [some (inputGlyph 10 0 :: inputGlyph 11 1 :: inputGlyph 12 2 ::
                  List.replicate 5 zeroGlyph),
            some (⟨55, 0, 0, 0, 1, HB_GLYPH_PROPERTIES_UNKNOWN⟩ :: inputGlyph 12 2 ::
                  List.replicate 6 zeroGlyph)] }

/-- The buffer after one more `hb_buffer_copy_output_glyph` on `outputCleared`. -/
def clearedThenCopy : HB_BufferRec :=
  { outputCleared with in_pos := 2, out_pos := 1, out_length := 1 }

/-- The requests of `hb_buffer_ensure` for the position and primary arrays
succeed, the one for the secondary array fails. -/
def ensureAltFails : EnsureAlloc := ⟨⟨true, HB_PositionRec.zero⟩, allocOk, allocFail⟩

/-- The buffer `hb_buffer_ensure (ligatureFormed, 100)` leaves behind when the
request for the secondary array fails: the primary array has moved and grown
to `105` cells, `allocated` is still `8`. -/
def ensureFailed : HB_BufferRec :=
  { ligatureFormed with
    in_string := some 2,
    mem := [none,
            some (⟨55, 0, 0, 0, 1, HB_GLYPH_PROPERTIES_UNKNOWN⟩ :: List.replicate 7 zeroGlyph),
            some (inputGlyph 10 0 :: inputGlyph 11 1 :: inputGlyph 12 2 ::
                  List.replicate 102 zeroGlyph)] }

/-- A pass over three glyphs: `hb_buffer_replace_output_glyph (99, inplace = TRUE)`
once, then `hb_buffer_copy_output_glyph` twice. -/
def replaceThenCopy : List PassCall :=
  [⟨some 99, ensureOk, allocOk⟩, ⟨none, ensureOk, allocOk⟩, ⟨none, ensureOk, allocOk⟩]

/-- The buffer after the pass `replaceThenCopy` on `threeGlyphs`. -/
def replacedInPlace : HB_BufferRec :=
  { threeGlyphs with
    in_pos := 3, out_pos := 3, out_length := 3,
    mem := [some (⟨99, 0, 0, 0, 0, HB_GLYPH_PROPERTIES_UNKNOWN⟩ :: inputGlyph 11 1 ::
                  inputGlyph 12 2 :: List.replicate 5 zeroGlyph)] }

/-- The buffer `hb_buffer_add_output_glyphs (threeGlyphs, 1, 9, ..)` leaves behind
when the capacity is grown (from `8` to `20`) and the request for the secondary
array in `hb_buffer_duplicate_out_buffer` then fails. -/
def grownThenFailed : HB_BufferRec :=
  { threeGlyphs with
    allocated := 20, in_string := some 1, out_string := some 1,
    mem := [none,
            some (inputGlyph 10 0 :: inputGlyph 11 1 :: inputGlyph 12 2 ::
                  List.replicate 17 zeroGlyph)] }

/-- Whether a call is `hb_buffer_allocate_ligid`. -/
def Op.isAllocateLigid : Op → Bool
  | .allocate_ligid => true
  | _ => false

/-- The ids returned, in order, by the `hb_buffer_allocate_ligid` calls of a
sequence of public calls (up to the first call without defined behaviour). -/
def allocatedIds (buffer : HB_BufferRec) : List Op → List Nat
  | [] => []
  | op :: ops =>
    match (op.run buffer).state with
    | none => []
    | some b =>
      (if op.isAllocateLigid then [(hb_buffer_allocate_ligid buffer).1] else [])
        ++ allocatedIds b ops

/-- The buffer with its ligature id counter set to `m`. -/
def withLigid (b : HB_BufferRec) (m : Nat) : HB_BufferRec := { b with max_ligID := m }

/-- The buffer after `hb_buffer_add_output_glyphs (2, 1, [55], 0xFFFF, 0xFFFF)` on
`threeGlyphs` with the ligature id counter at `65535`: the produced glyph has
the `ligID` of the first consumed glyph, `0`. -/
def ligatureInherited : HB_BufferRec :=
  { ligatureFormed with
    max_ligID := 65535,
    mem := [some (inputGlyph 10 0 :: inputGlyph 11 1 :: inputGlyph 12 2 ::
                  List.replicate 5 zeroGlyph),
            some (⟨55, 0, 0, 0, 0, HB_GLYPH_PROPERTIES_UNKNOWN⟩ :: List.replicate 7 zeroGlyph)] }

/-- Every allocator request of a `hb_buffer_ensure` call succeeds. -/
def EnsureAlloc.succeeds (a : EnsureAlloc) : Prop :=
  a.positions.ok = true ∧ a.in_string.ok = true ∧ a.alt_string.ok = true

/-- The arguments of one `hb_buffer_add_glyph` call, with the allocator outcomes
for it. -/
structure Append where
  glyph_index : Nat
  properties : Nat
  cluster : Nat
  a : EnsureAlloc

/-- The glyph `hb_buffer_add_glyph` stores for the arguments `x`. -/
def Append.glyph (x : Append) : HB_GlyphItemRec :=
  ⟨x.glyph_index, x.properties, x.cluster, 0, 0, HB_GLYPH_PROPERTIES_UNKNOWN⟩

/-- The calls of `hb_buffer_add_glyph` for a list of glyphs, in order, for as
long as they return `HB_Err_Ok`. -/
def appendAll (buffer : HB_BufferRec) : List Append → Res HB_BufferRec
  | [] => .ok buffer
  | x :: xs =>
    match hb_buffer_add_glyph buffer x.glyph_index x.properties x.cluster x.a with
    | .ok b => appendAll b xs
    | r => r

/-- The buffer `ligatureFormed` after a shaping pass has stored the glyph class
`2` in `gproperties` of the input glyph `12`, the glyph under `in_pos`. -/
def classified : HB_BufferRec :=
  { ligatureFormed with
    mem := [some (inputGlyph 10 0 :: inputGlyph 11 1 :: ⟨12, 0, 2, 0, 0, 2⟩ ::
                  List.replicate 5 zeroGlyph),
            some (⟨55, 0, 0, 0, 1, HB_GLYPH_PROPERTIES_UNKNOWN⟩ :: List.replicate 7 zeroGlyph)] }

/-- The buffer after `hb_buffer_copy_output_glyph` on `classified`. -/
def classifiedCopied : HB_BufferRec :=
  { classified with
    in_pos := 3, out_pos := 2, out_length := 2,
    mem := [some (inputGlyph 10 0 :: inputGlyph 11 1 :: ⟨12, 0, 2, 0, 0, 2⟩ ::
                  List.replicate 5 zeroGlyph),
            some (⟨55, 0, 0, 0, 1, HB_GLYPH_PROPERTIES_UNKNOWN⟩ :: ⟨12, 0, 2, 0, 0, 2⟩ ::
                  List.replicate 6 zeroGlyph)] }

/-- The buffer after `hb_buffer_replace_output_glyph (99, inplace = TRUE)` on
`classified`. -/
def classifiedReplaced : HB_BufferRec :=
  { classified with
    in_pos := 3, out_pos := 2, out_length := 2,
    mem := [some (inputGlyph 10 0 :: inputGlyph 11 1 :: ⟨12, 0, 2, 0, 0, 2⟩ ::
                  List.replicate 5 zeroGlyph),
            some (⟨55, 0, 0, 0, 1, HB_GLYPH_PROPERTIES_UNKNOWN⟩ :: ⟨99, 0, 2, 0, 0, 2⟩ ::
                  List.replicate 6 zeroGlyph)] }

/-- Thirty-nine calls of `hb_buffer_add_glyph`, every allocation succeeding. -/
def appendThirtyNine : List Op := List.replicate 39 (Op.add_glyph 7 0 0 ensureOk)

/-- The buffer after `appendThirtyNine` on a new buffer: the capacity has grown
`0, 8, 20, 38, 65`. -/
def capacity65 : HB_BufferRec :=
  { allocated := 65, in_length := 39, out_length := 0, in_pos := 0, out_pos := 0,
    separate_out := false, in_string := some 3, out_string := some 3, alt_string := none,
    positions := none, max_ligID := 0,
    mem := [none, none, none,
            some (List.replicate 39 (inputGlyph 7 0) ++ List.replicate 26 zeroGlyph)] }

/-- The buffer after `hb_buffer_ensure (capacity65, 66)`: the capacity is `105`. -/
def capacity105 : HB_BufferRec :=
  { capacity65 with
    allocated := 105, in_string := some 4, out_string := some 4,
    mem := [none, none, none, none,
            some (List.replicate 39 (inputGlyph 7 0) ++ List.replicate 66 zeroGlyph)] }

/-- The calls that lead from a new buffer to `ensureFailed`: three glyphs are
appended, two of them are merged, and a second `hb_buffer_add_output_glyphs`
asks for `100` more output glyphs while the request for the secondary array
fails. -/
def failingCalls : List Op :=
  appendThree ++ [Op.add_output_glyphs 2 1 [55] 0xFFFF 1 ensureOk allocOk,
    Op.add_output_glyphs 1 100 [] 0 0 ensureAltFails allocOk]

/-- The glyphs `10, 11, 12` with clusters `0, 1, 2`, to be appended with every
allocation succeeding. -/
def threeAppends : List Append :=
  [⟨10, 0, 0, ensureOk⟩, ⟨11, 0, 1, ensureOk⟩, ⟨12, 0, 2, ensureOk⟩]

/-- The buffer after `hb_buffer_replace_output_glyph (99, inplace = FALSE)` on
`classified`. -/
def classifiedProduced : HB_BufferRec :=
  { classified with
    in_pos := 3, out_pos := 2, out_length := 2,
    mem := [some (inputGlyph 10 0 :: inputGlyph 11 1 :: ⟨12, 0, 2, 0, 0, 2⟩ ::
                  List.replicate 5 zeroGlyph),
            some (⟨55, 0, 0, 0, 1, HB_GLYPH_PROPERTIES_UNKNOWN⟩ ::
                  ⟨99, 0, 2, 0, 0, HB_GLYPH_PROPERTIES_UNKNOWN⟩ ::
                  List.replicate 6 zeroGlyph)] }

/-- The calls of `n` rounds of `hb_buffer_copy_output_glyph` followed by
`hb_buffer_clear_output`, every allocation succeeding. -/
def copyClearRounds : Nat → List Op
  | 0 => []
  | n + 1 => Op.copy_output_glyph ensureOk :: Op.clear_output :: copyClearRounds n

/-- The buffer of `threeGlyphs` after `2 ^ 31` rounds of
`hb_buffer_copy_output_glyph` and `hb_buffer_clear_output`: three input glyphs
in arrays of eight cells, the input cursor at `2 ^ 31`. -/
def cursorPastInt : HB_BufferRec := { threeGlyphs with in_pos := 2147483648 }

/-- What a call that only manages storage keeps: the counters and flags, and
the contents of the first `allocated` cells of each of the three arrays. -/
structure Kept (b b' : HB_BufferRec) : Prop where
  in_length : b'.in_length = b.in_length
  out_length : b'.out_length = b.out_length
  in_pos : b'.in_pos = b.in_pos
  out_pos : b'.out_pos = b.out_pos
  separate_out : b'.separate_out = b.separate_out
  max_ligID : b'.max_ligID = b.max_ligID
  alt_null : b'.alt_string = none ↔ b.alt_string = none
  in_glyph : ∀ i, i < b.allocated → b'.inGlyph i = b.inGlyph i
  out_glyph : ∀ i, i < b.allocated → b'.outGlyph i = b.outGlyph i
  alt_glyph : ∀ i, i < b.allocated → b'.altGlyph i = b.altGlyph i

/-- The output view is backed by the same storage (primary, secondary) in both states. -/
def SameBacking (b b' : HB_BufferRec) : Prop :=
  (b'.out_string = b'.in_string ↔ b.out_string = b.in_string) ∧
  (b'.out_string = b'.alt_string ↔ b.out_string = b.alt_string)

/-! ## Memory lemmas -/

theorem block_none (m : Mem) : m.block none = none := rfl

theorem block_lt {m : Mem} {a : Nat} {cells : List HB_GlyphItemRec}
    (h : m.block (some a) = some cells) : a < m.length := by
  by_contra hlt
  have : m[a]? = none := List.getElem?_eq_none (by omega)
  simp [Mem.block, this] at h

theorem block_append_lt (m l : Mem) {a : Nat} (h : a < m.length) :
    Mem.block (m ++ l) (some a) = m.block (some a) := by
  simp [Mem.block, List.getElem?_append_left h]

theorem block_append_new (m : Mem) (x : Option (List HB_GlyphItemRec)) :
    Mem.block (m ++ [x]) (some m.length) = x := by
  simp only [Mem.block, List.getElem?_append_right (le_refl _)]
  cases x <;> simp

theorem block_set_ne (m : Mem) {a a' : Nat} (x : Option (List HB_GlyphItemRec)) (h : a ≠ a') :
    Mem.block (m.set a x) (some a') = m.block (some a') := by
  simp [Mem.block, List.getElem?_set_ne h]

theorem block_set_self (m : Mem) {a : Nat} (x : Option (List HB_GlyphItemRec))
    (h : a < m.length) : Mem.block (m.set a x) (some a) = x := by
  simp only [Mem.block, List.getElem?_set_self h]
  cases x <;> simp

theorem length_resized {α : Type} (cells : List α) (n : Nat) (f : α) :
    (resized cells n f).length = n := by
  simp [resized]; omega

theorem getElem?_resized {α : Type} (cells : List α) (n : Nat) (f : α) {i : Nat}
    (hi : i < n) (hc : i < cells.length) : (resized cells n f)[i]? = cells[i]? := by
  simp [resized, List.getElem?_append, List.getElem?_take, hi, hc]

theorem realloc_spec (m : Mem) (p : Ptr) (n : Nat) (o : Alloc HB_GlyphItemRec)
    (hp : p = none ∨ ∃ c, m.block p = some c) :
    (o.ok = false ∧ ∃ x, REALLOC_ARRAY m p n o = .error x) ∨
    (o.ok = true ∧ ∃ m', REALLOC_ARRAY m p n o = .ok (m', some m.length) ∧
      m'.length = m.length + 1 ∧
      m'.block (some m.length) = some (resized (m.cells p) n o.fresh) ∧
      ∀ q, q ≠ p → q ≠ some m.length → m'.block q = m.block q) := by
  cases hok : o.ok
  · left
    refine ⟨rfl, ?_⟩
    rcases hp with rfl | ⟨c, hc⟩
    · exact ⟨(m, none), by simp [REALLOC_ARRAY, hok]⟩
    · cases p with
      | none => simp [Mem.block] at hc
      | some a => exact ⟨(m, some a), by simp [REALLOC_ARRAY, hok, hc]⟩
  · right
    refine ⟨rfl, ?_⟩
    rcases hp with rfl | ⟨c, hc⟩
    · refine ⟨m ++ [some (List.replicate n o.fresh)], by simp [REALLOC_ARRAY, hok], by simp, ?_, ?_⟩
      · rw [block_append_new]; simp [Mem.cells, Mem.block, resized]
      · intro q _ hq
        cases q with
        | none => rfl
        | some a =>
          rcases Nat.lt_or_ge a m.length with h | h
          · exact block_append_lt _ _ h
          · have hne : a ≠ m.length := fun e => hq (by rw [e])
            have h1 : (m ++ [some (List.replicate n o.fresh)])[a]? = none :=
              List.getElem?_eq_none (by simp; omega)
            have h2 : m[a]? = none := List.getElem?_eq_none h
            simp [Mem.block, h1, h2]
    · cases p with
      | none => simp [Mem.block] at hc
      | some a =>
        have ha := block_lt hc
        refine ⟨(m.set a none) ++ [some (resized c n o.fresh)], by simp [REALLOC_ARRAY, hok, hc],
          by simp, ?_, ?_⟩
        · have := block_append_new (m.set a none) (some (resized c n o.fresh))
          simp only [List.length_set] at this
          rw [this]; simp [Mem.cells, hc]
        · intro q hqp hq
          cases q with
          | none => rfl
          | some a' =>
            have hne : a ≠ a' := fun e => hqp (by rw [e])
            rcases Nat.lt_or_ge a' m.length with h | h
            · rw [block_append_lt _ _ (by simpa using h), block_set_ne _ _ hne]
            · have hne2 : a' ≠ m.length := fun e => hq (by rw [e])
              have h1 : ((m.set a none) ++ [some (resized c n o.fresh)])[a']? = none :=
                List.getElem?_eq_none (by simp; omega)
              have h2 : m[a']? = none := List.getElem?_eq_none h
              simp [Mem.block, h1, h2]

theorem growLoop_ge (fuel size n : Nat) (h : size ≤ n + fuel) : size ≤ growLoop fuel size n := by
  induction fuel generalizing n with
  | zero => simpa [growLoop] using h
  | succ k ih =>
    simp only [growLoop]
    split
    · exact ih _ (by omega)
    · omega

theorem growLoop_mono (fuel size n : Nat) : n ≤ growLoop fuel size n := by
  induction fuel generalizing n with
  | zero => simp [growLoop]
  | succ k ih =>
    simp only [growLoop]
    split
    · exact le_trans (by omega) (ih _)
    · exact le_refl _

theorem grow_ge (size allocated : Nat) : size ≤ grow size allocated :=
  growLoop_ge _ _ _ (by omega)

theorem grow_mono (size allocated : Nat) : allocated ≤ grow size allocated :=
  growLoop_mono _ _ _

theorem read_of_block {m : Mem} {p : Ptr} {cells : List HB_GlyphItemRec}
    (h : m.block p = some cells) (i : Nat) : m.read p i = cells[i]? := by
  simp [Mem.read, h]

theorem read_of_block_eq {m m' : Mem} {p p' : Ptr} (h : m'.block p' = m.block p) (i : Nat) :
    m'.read p' i = m.read p i := by
  simp [Mem.read, h]

theorem capOk_ne_none {m : Mem} {p : Ptr} {n : Nat} (h : m.capOk p n) : p ≠ none := by
  rintro rfl
  obtain ⟨c, hc, _⟩ := h
  simp [Mem.block] at hc

theorem capOk_mono {m : Mem} {p : Ptr} {n k : Nat} (h : m.capOk p n) (hk : k ≤ n) :
    m.capOk p k := by
  obtain ⟨c, hc, hl⟩ := h
  exact ⟨c, hc, le_trans hk hl⟩

theorem WF.with_positions {b : HB_BufferRec} (hwf : WF b) (pos : Option (List HB_PositionRec))
    (h : ∀ c, pos = some c → b.allocated ≤ c.length) : WF { b with positions := pos } :=
  ⟨hwf.in_le, hwf.out_le, hwf.out_eq, hwf.in_null, hwf.in_cap, hwf.alt_cap, hwf.alt_ne,
    hwf.sep_alt, hwf.alt_pos, h⟩

theorem some_null_iff (a : Nat) {n : Nat} (hn : 0 < n) : (some a : Ptr) = none ↔ n = 0 :=
  ⟨fun h => by simp at h, fun h => by omega⟩

theorem Kept.out_glyph_ne {b b' : HB_BufferRec} (h : Kept b b') (i : Nat) (hi : i < b.allocated)
    (_ : i ≠ b.out_pos) : b'.outGlyph i = b.outGlyph i := h.out_glyph i hi

theorem Kept.refl (b : HB_BufferRec) : Kept b b :=
  ⟨rfl, rfl, rfl, rfl, rfl, rfl, Iff.rfl, fun _ _ => rfl, fun _ _ => rfl, fun _ _ => rfl⟩

theorem ensureStrings_spec {b : HB_BufferRec} (hwf : WF b) (n : Nat) (a : EnsureAlloc)
    (hn : b.allocated ≤ n) (hn0 : 0 < n)
    (hpos : ∀ cells, b.positions = some cells → n ≤ cells.length) :
    match ensureStrings b n a with
    | .ok b' => WF b' ∧ Kept b b' ∧ b'.allocated = n
    | .error b' => WF b' ∧ Kept b b' ∧ b'.allocated = b.allocated ∧ SameBacking b b'
    | .undefined => False := by
  unfold ensureStrings
  have hin := realloc_spec b.mem b.in_string n a.in_string (by
    by_cases h : b.in_string = none
    · exact Or.inl h
    · obtain ⟨c, hc, _⟩ := hwf.in_cap h
      exact Or.inr ⟨c, hc⟩)
  rcases hin with ⟨hok, x, hx⟩ | ⟨hok, m1, hx, hlen1, hnew1, hold1⟩
  · simp only [hx]
    exact ⟨hwf, Kept.refl b, trivial, Iff.rfl, Iff.rfl⟩
  simp only [hx]
  -- the resized primary array
  have hincells : ∀ i, i < b.allocated →
      (resized (b.mem.cells b.in_string) n a.in_string.fresh)[i]? = b.mem.read b.in_string i := by
    intro i hi
    have hne : b.in_string ≠ none := fun h => by have := hwf.in_null.1 h; omega
    obtain ⟨c, hc, hcl⟩ := hwf.in_cap hne
    rw [read_of_block hc, Mem.cells, hc]
    exact getElem?_resized _ _ _ (by omega) (by simpa using (by omega : i < c.length))
  have hin1 : ∀ i, i < b.allocated → m1.read (some b.mem.length) i = b.mem.read b.in_string i := by
    intro i hi
    rw [read_of_block hnew1]; exact hincells i hi
  have hincapN : m1.capOk (some b.mem.length) n := ⟨_, hnew1, by rw [length_resized]⟩
  have hincap : m1.capOk (some b.mem.length) b.allocated := capOk_mono hincapN hn
  by_cases halt : b.alt_string = none
  · -- no secondary array: the buffer cannot be separated
    have hsep : b.separate_out = false := by
      cases h : b.separate_out
      · rfl
      · exact absurd halt (hwf.sep_alt h)
    have hout : b.out_string = b.in_string := by have := hwf.out_eq; simpa [hsep] using this
    simp only [hsep, halt, Bool.false_eq_true, if_false, ne_eq, not_true_eq_false]
    refine ⟨⟨le_trans hwf.in_le hn, le_trans hwf.out_le hn, by simp, some_null_iff _ hn0,
      fun _ => hincapN, by simp, by simp, by simp, by simp, hpos⟩, ⟨rfl, rfl, rfl, rfl, hsep.symm, rfl, by simp [halt],
      hin1, ?_, ?_⟩, trivial⟩
    · intro i hi; show m1.read _ i = b.mem.read b.out_string i; rw [hout]; exact hin1 i hi
    · intro i hi; show m1.read none i = b.mem.read b.alt_string i; rw [halt]; rfl
  -- the secondary array exists: it is live in `m1` and is resized next
  obtain ⟨c, hc, hcl⟩ := hwf.alt_cap halt
  have hane : b.alt_string ≠ some b.mem.length := by
    intro e; rw [e] at hc; have := block_lt hc; omega
  have hc1 : m1.block b.alt_string = some c := by rw [hold1 _ (hwf.alt_ne halt) hane, hc]
  have halt1 : ∀ i, m1.read b.alt_string i = b.mem.read b.alt_string i :=
    fun i => read_of_block_eq (by rw [hc1, hc]) i
  rcases realloc_spec m1 b.alt_string n a.alt_string (Or.inr ⟨c, hc1⟩) with
    ⟨hok2, x2, hx2⟩ | ⟨hok2, m2, hx2, hlen2, hnew2, hold2⟩
  · -- the second request fails
    simp only [hx2, halt, ne_eq, not_false_eq_true, if_true]
    cases hsep : b.separate_out
    · have hout : b.out_string = b.in_string := by have := hwf.out_eq; simpa [hsep] using this
      simp only [Bool.false_eq_true, if_false]
      refine ⟨⟨hwf.in_le, hwf.out_le, by simp, some_null_iff _ (hwf.alt_pos halt),
        fun _ => hincap, fun _ => ⟨c, hc1, hcl⟩, fun _ => hane, by simp, hwf.alt_pos,
        hwf.pos_cap⟩,
        ⟨rfl, rfl, rfl, rfl, hsep.symm, rfl, Iff.rfl, hin1, ?_, fun i _ => halt1 i⟩, trivial,
        ⟨fun _ => hout, fun _ => rfl⟩, ⟨fun h => absurd h.symm hane, fun h => ?_⟩⟩
      · intro i hi; show m1.read _ i = b.mem.read b.out_string i; rw [hout]; exact hin1 i hi
      · exact absurd (h.symm.trans hout) (hwf.alt_ne halt)
    · have hout : b.out_string = b.alt_string := by have := hwf.out_eq; simpa [hsep] using this
      simp only [if_true]
      refine ⟨⟨hwf.in_le, hwf.out_le, by simp [hout], some_null_iff _ (hwf.alt_pos halt),
        fun _ => hincap, fun _ => ⟨c, hc1, hcl⟩, fun _ => hane, fun _ => halt, hwf.alt_pos,
        hwf.pos_cap⟩,
        ⟨rfl, rfl, rfl, rfl, hsep.symm, rfl, Iff.rfl, hin1, ?_, fun i _ => halt1 i⟩, trivial,
        ⟨fun h => ?_, fun h => ?_⟩, ⟨fun _ => hout, fun _ => hout⟩⟩
      · intro i hi; show m1.read b.out_string i = b.mem.read b.out_string i; rw [hout]
        exact halt1 i
      · exact absurd (hout.symm.trans h) hane
      · exact absurd (hout.symm.trans h) (hwf.alt_ne halt)
  · -- both requests succeed
    simp only [hx2, halt, ne_eq, not_false_eq_true, if_true]
    have hL : m1.length ≠ b.mem.length := by omega
    have hin2b : m2.block (some b.mem.length) = m1.block (some b.mem.length) :=
      hold2 _ (Ne.symm hane) (by simpa using Ne.symm hL)
    have hin2 : ∀ i, i < b.allocated → m2.read (some b.mem.length) i = b.mem.read b.in_string i :=
      fun i hi => (read_of_block_eq hin2b i).trans (hin1 i hi)
    have hincap2 : m2.capOk (some b.mem.length) n := by
      obtain ⟨c', h1, h2⟩ := hincapN
      exact ⟨c', by rw [hin2b, h1], h2⟩
    have haltcap2 : m2.capOk (some m1.length) n := ⟨_, hnew2, by rw [length_resized]⟩
    have halt2 : ∀ i, i < b.allocated → m2.read (some m1.length) i = b.mem.read b.alt_string i := by
      intro i hi
      rw [read_of_block hnew2, read_of_block hc, Mem.cells, hc1]
      exact getElem?_resized _ _ _ (by omega) (by simpa using (by omega : i < c.length))
    cases hsep : b.separate_out
    · have hout : b.out_string = b.in_string := by have := hwf.out_eq; simpa [hsep] using this
      simp only [Bool.false_eq_true, if_false]
      refine ⟨⟨le_trans hwf.in_le hn, le_trans hwf.out_le hn, by simp, some_null_iff _ hn0,
        fun _ => hincap2, fun _ => haltcap2, fun _ => by simpa using hL, by simp, fun _ => hn0,
        hpos⟩,
        ⟨rfl, rfl, rfl, rfl, hsep.symm, rfl, by simp [halt], hin2, ?_, halt2⟩, trivial⟩
      intro i hi; show m2.read _ i = b.mem.read b.out_string i; rw [hout]; exact hin2 i hi
    · have hout : b.out_string = b.alt_string := by have := hwf.out_eq; simpa [hsep] using this
      simp only [if_true]
      refine ⟨⟨le_trans hwf.in_le hn, le_trans hwf.out_le hn, by simp, some_null_iff _ hn0,
        fun _ => hincap2, fun _ => haltcap2, fun _ => by simpa using hL, by simp, fun _ => hn0,
        hpos⟩,
        ⟨rfl, rfl, rfl, rfl, hsep.symm, rfl, by simp [halt], hin2, ?_, halt2⟩, trivial⟩
      intro i hi; show m2.read _ i = b.mem.read b.out_string i; rw [hout]; exact halt2 i hi

theorem ensure_spec {b : HB_BufferRec} (hwf : WF b) (size : Nat) (a : EnsureAlloc) :
    match hb_buffer_ensure b size a with
    | .ok b' => WF b' ∧ Kept b b' ∧ size ≤ b'.allocated ∧ b.allocated ≤ b'.allocated
    | .error b' => WF b' ∧ Kept b b' ∧ b'.allocated = b.allocated ∧ SameBacking b b'
    | .undefined => False := by
  unfold hb_buffer_ensure
  by_cases hsz : size > b.allocated
  swap
  · simp only [hsz, if_false]
    exact ⟨hwf, Kept.refl b, by omega, le_refl _⟩
  simp only [hsz, if_true]
  have hg := grow_ge size b.allocated
  have hm := grow_mono size b.allocated
  cases hp : b.positions with
  | none =>
    simp only []
    have h := ensureStrings_spec hwf (grow size b.allocated) a hm (by omega) (by simp [hp])
    revert h
    cases ensureStrings b (grow size b.allocated) a with
    | ok b' => exact fun ⟨h1, h2, h3⟩ => ⟨h1, h2, by omega, by omega⟩
    | error b' => exact fun h => h
    | undefined => exact fun h => h
  | some cells =>
    simp only []
    cases hpo : a.positions.ok
    · simp only [Bool.false_eq_true, if_false]
      exact ⟨hwf, Kept.refl b, trivial, Iff.rfl, Iff.rfl⟩
    · simp only [if_true]
      have hwf1 := WF.with_positions hwf
        (some (resized cells (grow size b.allocated) a.positions.fresh)) (fun c hc => by
          simp only [Option.some.injEq] at hc
          rw [← hc, length_resized]; exact hm)
      have h := ensureStrings_spec hwf1 (grow size b.allocated) a hm (by omega) (fun c hc => by
        simp only [Option.some.injEq] at hc
        rw [← hc, length_resized])
      revert h
      generalize ensureStrings _ _ _ = r
      cases r with
      | ok b' =>
        exact fun ⟨h1, h2, h3⟩ => ⟨h1, ⟨h2.1, h2.2, h2.3, h2.4, h2.5, h2.6, h2.7, h2.8, h2.9,
          h2.10⟩, by omega, by omega⟩
      | error b' =>
        exact fun ⟨h1, h2, h3, h4⟩ => ⟨h1, ⟨h2.1, h2.2, h2.3, h2.4, h2.5, h2.6, h2.7, h2.8, h2.9,
          h2.10⟩, h3, h4⟩
      | undefined => exact fun h => h

theorem ensure_ok {b b' : HB_BufferRec} {size : Nat} {a : EnsureAlloc} (hwf : WF b)
    (h : hb_buffer_ensure b size a = .ok b') :
    WF b' ∧ Kept b b' ∧ size ≤ b'.allocated ∧ b.allocated ≤ b'.allocated := by
  have := ensure_spec hwf size a
  rw [h] at this
  exact this

theorem ensure_error {b b' : HB_BufferRec} {size : Nat} {a : EnsureAlloc} (hwf : WF b)
    (h : hb_buffer_ensure b size a = .error b') :
    WF b' ∧ Kept b b' ∧ b'.allocated = b.allocated ∧ SameBacking b b' := by
  have := ensure_spec hwf size a
  rw [h] at this
  exact this

theorem ensure_noop {b : HB_BufferRec} {size : Nat} (a : EnsureAlloc) (h : size ≤ b.allocated) :
    hb_buffer_ensure b size a = .ok b := by
  unfold hb_buffer_ensure
  simp [Nat.not_lt.mpr h]

/-! ## Writes -/

theorem write_spec {m m' : Mem} {p : Ptr} {i : Nat} {g : HB_GlyphItemRec}
    (h : m.write p i g = some m') :
    ∃ cells, m.block p = some cells ∧ i < cells.length ∧ m'.block p = some (cells.set i g) ∧
      (∀ q, q ≠ p → m'.block q = m.block q) ∧ m'.length = m.length := by
  cases p with
  | none => simp [Mem.write] at h
  | some a =>
    simp only [Mem.write] at h
    cases hb : m.block (some a) with
    | none => simp [hb] at h
    | some cells =>
      simp only [hb] at h
      by_cases hi : i < cells.length
      · simp only [hi, if_true, Option.some.injEq] at h
        subst h
        have ha := block_lt hb
        refine ⟨cells, rfl, hi, block_set_self _ _ ha, ?_, by simp⟩
        intro q hq
        cases q with
        | none => rfl
        | some a' => exact block_set_ne _ _ (fun e => hq (by rw [e]))
      · simp [hi] at h

theorem write_defined {m : Mem} {p : Ptr} {cells : List HB_GlyphItemRec} {i : Nat}
    (hb : m.block p = some cells) (hi : i < cells.length) (g : HB_GlyphItemRec) :
    ∃ m', m.write p i g = some m' := by
  cases p with
  | none => simp [Mem.block] at hb
  | some a => exact ⟨m.set a (some (cells.set i g)), by simp [Mem.write, hb, hi]⟩

theorem write_read {m m' : Mem} {p : Ptr} {i : Nat} {g : HB_GlyphItemRec}
    (h : m.write p i g = some m') (q : Ptr) (j : Nat) :
    m'.read q j = if q = p ∧ j = i then some g else m.read q j := by
  obtain ⟨cells, hb, hi, hb', hother, _⟩ := write_spec h
  by_cases hq : q = p
  · subst hq
    rw [read_of_block hb', read_of_block hb]
    by_cases hj : j = i
    · subst hj; simp [hi]
    · simp [hj, List.getElem?_set_ne (Ne.symm hj)]
  · simp only [hq, false_and, if_false]
    exact read_of_block_eq (hother q hq) j

theorem write_capOk {m m' : Mem} {p : Ptr} {i : Nat} {g : HB_GlyphItemRec}
    (h : m.write p i g = some m') {q : Ptr} {n : Nat} (hc : m.capOk q n) : m'.capOk q n := by
  obtain ⟨cells, hb, hi, hb', hother, _⟩ := write_spec h
  obtain ⟨c, hc1, hc2⟩ := hc
  by_cases hq : q = p
  · subst hq
    rw [hb] at hc1
    cases hc1
    exact ⟨_, hb', by simpa using hc2⟩
  · exact ⟨c, by rw [hother q hq, hc1], hc2⟩

theorem memcpy_spec {m m' : Mem} {dst src : Ptr} {n : Nat} (h : memcpy m dst src n = some m') :
    (n = 0 ∧ m' = m) ∨
    (∃ d s, m.block dst = some d ∧ m.block src = some s ∧ n ≤ d.length ∧ n ≤ s.length ∧
      m'.block dst = some (s.take n ++ d.drop n) ∧ ∀ q, q ≠ dst → m'.block q = m.block q) := by
  unfold memcpy at h
  by_cases hn : n = 0
  · left
    simp only [hn, if_true, Option.some.injEq] at h
    exact ⟨hn, h.symm⟩
  · right
    simp only [hn, if_false] at h
    cases dst with
    | none => simp at h
    | some a =>
      cases hd : m.block (some a) with
      | none => simp [hd] at h
      | some d =>
        cases hs : m.block src with
        | none => simp [hd, hs] at h
        | some s =>
          simp only [hd, hs] at h
          by_cases hle : n ≤ d.length ∧ n ≤ s.length
          · simp only [hle, and_self, if_true, Option.some.injEq] at h
            subst h
            refine ⟨d, s, rfl, rfl, hle.1, hle.2, block_set_self _ _ (block_lt hd), ?_⟩
            intro q hq
            cases q with
            | none => rfl
            | some a' => exact block_set_ne _ _ (fun e => hq (by rw [e]))
          · simp [hle] at h

theorem memcpy_defined {m : Mem} {a : Nat} {src : Ptr} {n : Nat} {d s : List HB_GlyphItemRec}
    (hd : m.block (some a) = some d) (hs : m.block src = some s) (h1 : n ≤ d.length)
    (h2 : n ≤ s.length) : ∃ m', memcpy m (some a) src n = some m' := by
  unfold memcpy
  by_cases hn : n = 0
  · exact ⟨m, by simp [hn]⟩
  · exact ⟨m.set a (some (s.take n ++ d.drop n)), by simp [hn, hd, hs, h1, h2]⟩

theorem outputLoop_spec (out_string : Ptr) (out_pos : Nat) (glyph_data : List Nat)
    (pr cl co li : Nat) :
    ∀ (n i : Nat) (m m' : Mem),
      outputLoop out_string out_pos glyph_data pr cl co li n i m = some m' →
      (∀ q k, m.capOk q k → m'.capOk q k) ∧
      (∀ q j, q ≠ out_string → m'.read q j = m.read q j) ∧
      (∀ j, j < out_pos + i ∨ out_pos + i + n ≤ j → m'.read out_string j = m.read out_string j) ∧
      (∀ j, i ≤ j → j < i + n → ∃ g, glyph_data[j]? = some g ∧
        m'.read out_string (out_pos + j) = some ⟨g, pr, cl, co, li, HB_GLYPH_PROPERTIES_UNKNOWN⟩) := by
  intro n
  induction n with
  | zero =>
    intro i m m' h
    simp only [outputLoop, Option.some.injEq] at h
    subst h
    exact ⟨fun _ _ h => h, fun _ _ _ => rfl, fun _ _ => rfl, fun j h1 h2 => by omega⟩
  | succ n ih =>
    intro i m m' h
    simp only [outputLoop] at h
    cases hg : glyph_data[i]? with
    | none => simp [hg] at h
    | some g =>
      simp only [hg] at h
      cases hw : m.write out_string (out_pos + i)
          ⟨g, pr, cl, co, li, HB_GLYPH_PROPERTIES_UNKNOWN⟩ with
      | none => simp [hw] at h
      | some m1 =>
        simp only [hw] at h
        obtain ⟨h1, h2, h3, h4⟩ := ih (i + 1) m1 m' h
        refine ⟨fun q k hc => h1 q k (write_capOk hw hc), ?_, ?_, ?_⟩
        · intro q j hq
          rw [h2 q j hq, write_read hw]
          simp [hq]
        · intro j hj
          rw [h3 j (by omega), write_read hw]
          have : j ≠ out_pos + i := by omega
          simp [this]
        · intro j hj1 hj2
          by_cases hji : j = i
          · subst hji
            refine ⟨g, hg, ?_⟩
            rw [h3 (out_pos + j) (by omega), write_read hw]
            simp
          · exact h4 j (by omega) (by omega)

theorem memcpy_props {m m' : Mem} {a : Nat} {src : Ptr} {n : Nat} {d s : List HB_GlyphItemRec}
    (h : memcpy m (some a) src n = some m') (hd : m.block (some a) = some d)
    (hs : m.block src = some s) (hne : src ≠ some a) (hn : n ≤ s.length) :
    m'.block src = some s ∧
    (∃ cs, m'.block (some a) = some cs ∧ cs.length = d.length ∧ ∀ i, i < n → cs[i]? = s[i]?) ∧
    ∀ q, q ≠ some a → m'.block q = m.block q := by
  rcases memcpy_spec h with ⟨h0, rfl⟩ | ⟨d', s', hd', hs', h1, h2, hnew, hother⟩
  · exact ⟨hs, ⟨d, hd, rfl, fun i hi => by omega⟩, fun _ _ => rfl⟩
  · rw [hd] at hd'; cases hd'
    rw [hs] at hs'; cases hs'
    refine ⟨by rw [hother _ hne, hs], ⟨_, hnew, ?_, ?_⟩, hother⟩
    · simp; omega
    · intro i hi
      have : i < (List.take n s).length := by simp; omega
      rw [List.getElem?_append_left this, List.getElem?_take]
      simp [hi]

theorem duplicate_spec {b : HB_BufferRec} (hwf : WF b) (hsep : b.separate_out = false)
    (d : Alloc HB_GlyphItemRec) :
    match hb_buffer_duplicate_out_buffer b d with
    | .ok b' =>
      b'.separate_out = true ∧ b'.allocated = b.allocated ∧ b'.in_length = b.in_length ∧
      b'.out_length = b.out_length ∧ b'.in_pos = b.in_pos ∧ b'.out_pos = b.out_pos ∧
      b'.max_ligID = b.max_ligID ∧ b'.in_string = b.in_string ∧
      b'.out_string = b'.alt_string ∧ (∀ i, b'.inGlyph i = b.inGlyph i) ∧
      (∀ i, i < b.out_length → b'.outGlyph i = b.outGlyph i) ∧ (0 < b.allocated → WF b')
    | .error b' => b' = b
    | .undefined => False := by
  have hout : b.out_string = b.in_string := by have := hwf.out_eq; simpa [hsep] using this
  have hol := hwf.out_le
  unfold hb_buffer_duplicate_out_buffer
  by_cases h0 : b.allocated = 0
  · -- nothing was ever allocated: a request for zero cells
    have hin : b.in_string = none := hwf.in_null.2 h0
    have halt : b.alt_string = none := by
      by_contra h
      have := hwf.alt_pos h
      omega
    have hlen : b.out_length = 0 := by omega
    simp only [halt, if_true, ALLOC_ARRAY, h0, memcpy, hlen]
    refine ⟨trivial, trivial, trivial, trivial, trivial, trivial, trivial, trivial, trivial, fun _ => rfl, fun i hi => by omega,
      fun h => by omega⟩
  have hinne : b.in_string ≠ none := fun h => h0 (hwf.in_null.1 h)
  obtain ⟨s, hs, hsl⟩ := hwf.in_cap hinne
  by_cases halt : b.alt_string = none
  · simp only [halt, if_true, ALLOC_ARRAY, h0, if_false]
    cases hok : d.ok
    · simp
    · simp only [if_true]
      have hs1 : Mem.block (b.mem ++ [some (List.replicate b.allocated d.fresh)]) b.in_string
          = some s := by
        cases hi : b.in_string with
        | none => exact absurd hi hinne
        | some x => rw [hi] at hs; rw [block_append_lt _ _ (block_lt hs), hs]
      have hd1 := block_append_new b.mem (some (List.replicate b.allocated d.fresh))
      have hne : b.in_string ≠ some b.mem.length := by
        intro e; rw [e] at hs; have := block_lt hs; omega
      obtain ⟨m2, hm2⟩ := memcpy_defined (n := b.out_length) hd1 hs1 (by simp; omega) (by omega)
      simp only [hm2]
      obtain ⟨hin2, ⟨c, hc, hcl, hcp⟩, -⟩ := memcpy_props hm2 hd1 hs1 hne (by omega)
      refine ⟨trivial, trivial, trivial, trivial, trivial, trivial, trivial, trivial, trivial, ?_, ?_, ?_⟩
      · intro i; exact read_of_block_eq (by rw [hin2, hs]) i
      · intro i hi
        show m2.read (some b.mem.length) i = b.mem.read b.out_string i
        rw [hout, read_of_block hc, read_of_block hs]
        exact hcp i hi
      · intro hpos
        exact ⟨hwf.in_le, hwf.out_le, by simp, hwf.in_null, fun _ => ⟨s, hin2, hsl⟩,
          fun _ => ⟨c, hc, by rw [hcl]; simp⟩, fun _ => Ne.symm hne, by simp, fun _ => hpos,
          hwf.pos_cap⟩
  · simp only [halt, if_false]
    obtain ⟨dc, hdc, hdl⟩ := hwf.alt_cap halt
    cases ha : b.alt_string with
    | none => exact absurd ha halt
    | some x =>
      rw [ha] at hdc
      have hne : b.in_string ≠ some x := by rw [← ha]; exact Ne.symm (hwf.alt_ne halt)
      obtain ⟨m2, hm2⟩ := memcpy_defined (n := b.out_length) hdc hs (by omega) (by omega)
      simp only [hm2]
      obtain ⟨hin2, ⟨c, hc, hcl, hcp⟩, -⟩ := memcpy_props hm2 hdc hs hne (by omega)
      refine ⟨trivial, trivial, trivial, trivial, trivial, trivial, trivial, trivial, trivial, ?_, ?_, ?_⟩
      · intro i; exact read_of_block_eq (by rw [hin2, hs]) i
      · intro i hi
        show m2.read (some x) i = b.mem.read b.out_string i
        rw [hout, read_of_block hc, read_of_block hs]
        exact hcp i hi
      · intro hpos
        exact ⟨hwf.in_le, hwf.out_le, by simp, hwf.in_null, fun _ => ⟨s, hin2, hsl⟩,
          fun _ => ⟨c, hc, by rw [hcl]; exact hdl⟩, fun _ => Ne.symm hne, by simp,
          fun _ => hpos, hwf.pos_cap⟩

theorem WF.with_mem {b : HB_BufferRec} (hwf : WF b) (m' : Mem) (il ol ip op : Nat)
    (hcap : ∀ q k, b.mem.capOk q k → m'.capOk q k) (hil : il ≤ b.allocated)
    (hol : ol ≤ b.allocated) :
    WF { b with mem := m', in_length := il, out_length := ol, in_pos := ip, out_pos := op } :=
  ⟨hil, hol, hwf.out_eq, hwf.in_null, fun h => hcap _ _ (hwf.in_cap h),
    fun h => hcap _ _ (hwf.alt_cap h), hwf.alt_ne, hwf.sep_alt, hwf.alt_pos, hwf.pos_cap⟩

theorem read_some_ne_none {m : Mem} {p : Ptr} {i : Nat} {g : HB_GlyphItemRec}
    (h : m.read p i = some g) : p ≠ none := by
  rintro rfl
  simp [Mem.read, Mem.block] at h

/-- The second step of `hb_buffer_add_output_glyphs`: after it the buffer is
separated, with the counters of before and the output prefix copied. -/
theorem separate_step {b1 b2 : HB_BufferRec} (hwf1 : WF b1) (d : Alloc HB_GlyphItemRec)
    (h : (if b1.separate_out = false then hb_buffer_duplicate_out_buffer b1 d else .ok b1)
      = .ok b2) :
    b2.separate_out = true ∧ b2.allocated = b1.allocated ∧ b2.in_length = b1.in_length ∧
    b2.out_length = b1.out_length ∧ b2.in_pos = b1.in_pos ∧ b2.out_pos = b1.out_pos ∧
    b2.max_ligID = b1.max_ligID ∧ b2.in_string = b1.in_string ∧
    b2.out_string = b2.alt_string ∧ (∀ i, b2.inGlyph i = b1.inGlyph i) ∧
    (∀ i, i < b1.out_length → b2.outGlyph i = b1.outGlyph i) ∧ (0 < b1.allocated → WF b2) := by
  cases hsep : b1.separate_out
  · simp only [hsep, if_true] at h
    have := duplicate_spec hwf1 hsep d
    rw [h] at this
    exact this
  · simp only [hsep, Bool.true_eq_false, if_false, Res.ok.injEq] at h
    subst h
    have hout := hwf1.out_eq
    simp only [hsep, if_true] at hout
    exact ⟨hsep, rfl, rfl, rfl, rfl, rfl, rfl, rfl, hout, fun _ => rfl, fun _ _ => rfl,
      fun _ => hwf1⟩

theorem separate_step_error {b1 b2 : HB_BufferRec} (hwf1 : WF b1) (d : Alloc HB_GlyphItemRec)
    (h : (if b1.separate_out = false then hb_buffer_duplicate_out_buffer b1 d else .ok b1)
      = .error b2) : b2 = b1 := by
  cases hsep : b1.separate_out
  · simp only [hsep, if_true] at h
    have := duplicate_spec hwf1 hsep d
    rw [h] at this
    exact this
  · simp [hsep] at h

theorem add_output_glyphs_ok {b b' : HB_BufferRec} {num_in num_out : Nat}
    {glyph_data : List Nat} {component ligID : Nat} {a : EnsureAlloc}
    {d : Alloc HB_GlyphItemRec} (hwf : WF b)
    (h : hb_buffer_add_output_glyphs b num_in num_out glyph_data component ligID a d = .ok b') :
    WF b' ∧ b'.separate_out = true ∧ b'.in_length = b.in_length ∧
    b'.in_pos = b.in_pos + num_in ∧ b'.out_pos = b.out_pos + num_out ∧
    b'.out_length = b.out_pos + num_out ∧ b'.max_ligID = b.max_ligID ∧
    (∃ cur, (b.in_pos < b.allocated → b.inGlyph b.in_pos = some cur) ∧
      ∀ j, j < num_out → ∃ g, glyph_data[j]? = some g ∧
        b'.outGlyph (b.out_pos + j) = some
          ⟨g, cur.properties, cur.cluster,
            if component = 0xFFFF then cur.component else component,
            if ligID = 0xFFFF then cur.ligID else ligID, HB_GLYPH_PROPERTIES_UNKNOWN⟩) ∧
    (∀ i, i < b.allocated → b'.inGlyph i = b.inGlyph i) ∧
    (∀ i, i < b.out_pos → i < b.out_length → b'.outGlyph i = b.outGlyph i) := by
  unfold hb_buffer_add_output_glyphs at h
  cases he : hb_buffer_ensure b (b.out_pos + num_out) a with
  | undefined => simp [he] at h
  | error b1 => simp [he] at h
  | ok b1 =>
    obtain ⟨hwf1, hk, hsz, hal⟩ := ensure_ok hwf he
    simp only [he] at h
    cases hs : (if b1.separate_out = false then hb_buffer_duplicate_out_buffer b1 d
        else .ok b1) with
    | undefined => simp [hs] at h
    | error b2 => simp [hs] at h
    | ok b2 =>
      obtain ⟨hsep2, hal2, hil2, hol2, hip2, hop2, hlig2, hin2, hout2, hig2, hog2, hwf2'⟩ :=
        separate_step hwf1 d hs
      simp only [hs] at h
      cases hr : b2.mem.read b2.in_string b2.in_pos with
      | none => simp [hr] at h
      | some cur =>
        simp only [hr] at h
        have hpos1 : 0 < b1.allocated := by
          have h1 : b1.in_string ≠ none := by rw [← hin2]; exact read_some_ne_none hr
          have h2 := hwf1.in_null
          by_contra h0
          exact h1 (h2.2 (by omega))
        have hwf2 := hwf2' hpos1
        cases hl : outputLoop b2.out_string b2.out_pos glyph_data cur.properties cur.cluster
            (if component = 0xFFFF then cur.component else component)
            (if ligID = 0xFFFF then cur.ligID else ligID) num_out 0 b2.mem with
        | none => simp [hl] at h
        | some m3 =>
          simp only [hl, Res.ok.injEq] at h
          obtain ⟨h1, h2, h3, h4⟩ := outputLoop_spec _ _ _ _ _ _ _ _ _ _ _ hl
          have hne : b2.in_string ≠ b2.out_string := by
            rw [hout2]
            exact Ne.symm (hwf2.alt_ne (hwf2.sep_alt hsep2))
          have hwf' := hwf2.with_mem m3 b2.in_length (b2.out_pos + num_out)
            (b2.in_pos + num_in) (b2.out_pos + num_out) h1 hwf2.in_le
            (by have := hk.out_pos; omega)
          subst h
          refine ⟨hwf', hsep2, by simp [hil2, hk.in_length], by simp [hip2, hk.in_pos],
            by simp [hop2, hk.out_pos], by simp [hop2, hk.out_pos], by simp [hlig2, hk.max_ligID],
            ⟨cur, ?_, ?_⟩, ?_, ?_⟩
          · intro hlt
            rw [← hk.in_glyph _ hlt, ← hig2, ← hr, hip2, hk.in_pos]
            rfl
          · intro j hj
            obtain ⟨g, hg, hw⟩ := h4 j (by omega) (by omega)
            refine ⟨g, hg, ?_⟩
            rw [hop2, hk.out_pos] at hw
            exact hw
          · intro i hi
            rw [← hk.in_glyph i hi, ← hig2 i]
            exact h2 _ _ hne
          · intro i hi1 hi2
            have hi3 : i < b.allocated := lt_of_lt_of_le hi2 hwf.out_le
            rw [← hk.out_glyph i hi3, ← hog2 i (by rw [hk.out_length]; exact hi2)]
            exact h3 i (Or.inl (by rw [hop2, hk.out_pos]; omega))

theorem add_output_glyphs_error {b b' : HB_BufferRec} {num_in num_out : Nat}
    {glyph_data : List Nat} {component ligID : Nat} {a : EnsureAlloc}
    {d : Alloc HB_GlyphItemRec} (hwf : WF b)
    (h : hb_buffer_add_output_glyphs b num_in num_out glyph_data component ligID a d
      = .error b') : WF b' := by
  unfold hb_buffer_add_output_glyphs at h
  cases he : hb_buffer_ensure b (b.out_pos + num_out) a with
  | undefined => simp [he] at h
  | error b1 =>
    simp only [he, Res.error.injEq] at h
    subst h
    exact (ensure_error hwf he).1
  | ok b1 =>
    obtain ⟨hwf1, -⟩ := ensure_ok hwf he
    simp only [he] at h
    cases hs : (if b1.separate_out = false then hb_buffer_duplicate_out_buffer b1 d
        else .ok b1) with
    | undefined => simp [hs] at h
    | error b2 =>
      simp only [hs, Res.error.injEq] at h
      subst h
      rw [separate_step_error hwf1 d hs]
      exact hwf1
    | ok b2 =>
      simp only [hs] at h
      cases hr : b2.mem.read b2.in_string b2.in_pos with
      | none => simp [hr] at h
      | some cur =>
        simp only [hr] at h
        split at h <;> simp at h

theorem WF.inGlyph_some {b : HB_BufferRec} (hwf : WF b) {i : Nat} (hi : i < b.allocated) :
    ∃ g, b.inGlyph i = some g := by
  have hne : b.in_string ≠ none := fun h => by have := hwf.in_null.1 h; omega
  obtain ⟨cells, hc, hl⟩ := hwf.in_cap hne
  have hil : i < cells.length := by omega
  exact ⟨cells[i], by
    show b.mem.read b.in_string i = _
    rw [read_of_block hc]; exact List.getElem?_eq_getElem hil⟩

theorem WF.out_capOk {b : HB_BufferRec} (hwf : WF b) (h0 : 0 < b.allocated) :
    b.mem.capOk b.out_string b.allocated := by
  rw [hwf.out_eq]
  cases hsep : b.separate_out
  · simp only [Bool.false_eq_true, if_false]
    exact hwf.in_cap (fun h => by have := hwf.in_null.1 h; omega)
  · simp only [if_true]
    exact hwf.alt_cap (hwf.sep_alt hsep)

theorem WF.outGlyph_some {b : HB_BufferRec} (hwf : WF b) {i : Nat} (hi : i < b.allocated) :
    ∃ g, b.outGlyph i = some g := by
  obtain ⟨cells, hc, hl⟩ := hwf.out_capOk (by omega)
  have hil : i < cells.length := by omega
  exact ⟨cells[i], by
    show b.mem.read b.out_string i = _
    rw [read_of_block hc]; exact List.getElem?_eq_getElem hil⟩

theorem WF.out_eq_in {b : HB_BufferRec} (hwf : WF b) (hsep : b.separate_out = false) :
    b.out_string = b.in_string := by
  have := hwf.out_eq
  simpa [hsep] using this

theorem WF.out_ne_in {b : HB_BufferRec} (hwf : WF b) (hsep : b.separate_out = true) :
    b.out_string ≠ b.in_string := by
  have := hwf.out_eq
  simp only [hsep, if_true] at this
  rw [this]
  exact hwf.alt_ne (hwf.sep_alt hsep)

theorem copy_output_glyph_ok {b b' : HB_BufferRec} {a : EnsureAlloc} (hwf : WF b)
    (h : hb_buffer_copy_output_glyph b a = .ok b') :
    WF b' ∧ b'.separate_out = b.separate_out ∧ b'.in_length = b.in_length ∧
    b'.in_pos = b.in_pos + 1 ∧ b'.out_pos = b.out_pos + 1 ∧ b'.out_length = b.out_pos + 1 ∧
    b'.max_ligID = b.max_ligID ∧ b.out_pos < b'.allocated ∧
    (b.separate_out = true → b.in_pos < b.allocated →
      b'.outGlyph b.out_pos = b.inGlyph b.in_pos) ∧
    (b.separate_out = false → ∀ i, i < b.allocated → b'.outGlyph i = b.inGlyph i) ∧
    (∀ i, i < b.allocated → b'.inGlyph i = b.inGlyph i) ∧
    (∀ i, i < b.allocated → i ≠ b.out_pos → b'.outGlyph i = b.outGlyph i) := by
  unfold hb_buffer_copy_output_glyph at h
  cases he : hb_buffer_ensure b (b.out_pos + 1) a with
  | undefined => simp [he] at h
  | error b1 => simp [he] at h
  | ok b1 =>
    obtain ⟨hwf1, hk, hsz, hal⟩ := ensure_ok hwf he
    simp only [he] at h
    cases hsep : b1.separate_out
    · -- aliased: nothing is written
      rw [if_neg (show ¬ b1.separate_out = true by simp [hsep])] at h
      simp only [Res.ok.injEq] at h
      subst h
      have hout := hwf1.out_eq_in hsep
      have hsepb : b.separate_out = false := by rw [← hk.separate_out]; exact hsep
      refine ⟨hwf1.with_mem b1.mem b1.in_length (b1.out_pos + 1) (b1.in_pos + 1)
          (b1.out_pos + 1) (fun _ _ hc => hc) hwf1.in_le (by have := hk.out_pos; omega),
        hk.separate_out, hk.in_length, by simp [hk.in_pos], by simp [hk.out_pos],
        by simp [hk.out_pos], hk.max_ligID, by show b.out_pos < b1.allocated; omega,
        fun h1 => absurd (hsepb.symm.trans h1) Bool.false_ne_true, ?_, hk.in_glyph,
        hk.out_glyph_ne⟩
      intro _ i hi
      show b1.mem.read b1.out_string i = _
      rw [hout]
      exact hk.in_glyph i hi
    · rw [if_pos hsep] at h
      cases hr : b1.mem.read b1.in_string b1.in_pos with
      | none => simp [hr] at h
      | some g =>
        simp only [hr] at h
        cases hw : b1.mem.write b1.out_string b1.out_pos g with
        | none => simp [hw] at h
        | some m2 =>
          simp only [hw, Res.ok.injEq] at h
          subst h
          have hne := hwf1.out_ne_in hsep
          have hsepb : b.separate_out = true := by rw [← hk.separate_out]; exact hsep
          refine ⟨hwf1.with_mem m2 b1.in_length (b1.out_pos + 1) (b1.in_pos + 1)
              (b1.out_pos + 1) (fun _ _ hc => write_capOk hw hc) hwf1.in_le
              (by have := hk.out_pos; omega),
            hk.separate_out, hk.in_length, by simp [hk.in_pos], by simp [hk.out_pos],
            by simp [hk.out_pos], hk.max_ligID, by show b.out_pos < b1.allocated; omega,
            ?_, fun h1 => absurd (h1.symm.trans hsepb) Bool.false_ne_true, ?_, ?_⟩
          · intro _ hlt
            show m2.read b1.out_string b.out_pos = _
            rw [write_read hw, ← hk.in_glyph _ hlt, ← hk.in_pos, ← hk.out_pos]
            simp only [and_self, if_true]
            exact hr.symm
          · intro i hi
            show m2.read b1.in_string i = _
            rw [write_read hw, ← hk.in_glyph i hi]
            simp [Ne.symm hne]
            rfl
          · intro i hi hio
            show m2.read b1.out_string i = _
            rw [write_read hw, ← hk.out_glyph i hi, hk.out_pos]
            simp [hio]
            rfl

theorem copy_output_glyph_error {b b' : HB_BufferRec} {a : EnsureAlloc} (hwf : WF b)
    (h : hb_buffer_copy_output_glyph b a = .error b') : WF b' := by
  unfold hb_buffer_copy_output_glyph at h
  cases he : hb_buffer_ensure b (b.out_pos + 1) a with
  | undefined => simp [he] at h
  | error b1 =>
    simp only [he, Res.error.injEq] at h
    subst h
    exact (ensure_error hwf he).1
  | ok b1 =>
    simp only [he] at h
    split at h <;> simp at h

theorem replace_inplace_ok {b b' : HB_BufferRec} {gi : Nat} {a : EnsureAlloc}
    {d : Alloc HB_GlyphItemRec} (hwf : WF b)
    (h : hb_buffer_replace_output_glyph b gi true a d = .ok b') :
    ∃ b1 g0, hb_buffer_copy_output_glyph b a = .ok b1 ∧ b1.outGlyph b.out_pos = some g0 ∧
      WF b' ∧ b'.separate_out = b1.separate_out ∧ b'.allocated = b1.allocated ∧
      b'.in_length = b1.in_length ∧ b'.out_length = b1.out_length ∧ b'.in_pos = b1.in_pos ∧
      b'.out_pos = b1.out_pos ∧ b'.max_ligID = b1.max_ligID ∧
      b'.outGlyph b.out_pos = some { g0 with gindex := gi } ∧
      (∀ i, i ≠ b.out_pos → b'.outGlyph i = b1.outGlyph i) ∧
      (∀ i, b.separate_out = true ∨ i ≠ b.out_pos → b'.inGlyph i = b1.inGlyph i) := by
  unfold hb_buffer_replace_output_glyph at h
  simp only [if_true] at h
  cases hc : hb_buffer_copy_output_glyph b a with
  | undefined => simp [hc] at h
  | error b1 => simp [hc] at h
  | ok b1 =>
    obtain ⟨hwf1, hsep1, -, -, hop1, -⟩ := copy_output_glyph_ok hwf hc
    simp only [hc] at h
    have hidx : b1.out_pos - 1 = b.out_pos := by omega
    rw [hidx] at h
    cases hr : b1.mem.read b1.out_string b.out_pos with
    | none => simp [hr] at h
    | some g0 =>
      simp only [hr] at h
      cases hw : b1.mem.write b1.out_string b.out_pos { g0 with gindex := gi } with
      | none => simp [hw] at h
      | some m2 =>
        simp only [hw, Res.ok.injEq] at h
        subst h
        refine ⟨b1, g0, rfl, hr, ?_, rfl, rfl, rfl, rfl, rfl, rfl, rfl, ?_, ?_, ?_⟩
        · exact hwf1.with_mem m2 b1.in_length b1.out_length b1.in_pos b1.out_pos
            (fun _ _ h => write_capOk hw h) hwf1.in_le hwf1.out_le
        · show m2.read b1.out_string b.out_pos = _
          rw [write_read hw]; simp
        · intro i hi
          show m2.read b1.out_string i = b1.mem.read b1.out_string i
          rw [write_read hw]; simp [hi]
        · intro i hi
          show m2.read b1.in_string i = b1.mem.read b1.in_string i
          rw [write_read hw]
          rcases hi with hs | hi
          · have hne := hwf1.out_ne_in (hsep1.trans hs)
            simp [Ne.symm hne]
          · simp [hi]

theorem replace_output_glyph_state {b b' : HB_BufferRec} {gi : Nat} {inplace : Bool}
    {a : EnsureAlloc} {d : Alloc HB_GlyphItemRec} (hwf : WF b)
    (h : (hb_buffer_replace_output_glyph b gi inplace a d).state = some b') : WF b' := by
  cases inplace with
  | true =>
    cases hr : hb_buffer_replace_output_glyph b gi true a d with
    | undefined => simp [hr, Res.state] at h
    | ok b1 =>
      simp only [hr, Res.state, Option.some.injEq] at h
      subst h
      obtain ⟨_, _, _, _, hw, -⟩ := replace_inplace_ok hwf hr
      exact hw
    | error b1 =>
      simp only [hr, Res.state, Option.some.injEq] at h
      subst h
      unfold hb_buffer_replace_output_glyph at hr
      simp only [if_true] at hr
      cases hc : hb_buffer_copy_output_glyph b a with
      | undefined => simp [hc] at hr
      | error b2 =>
        simp only [hc, Res.error.injEq] at hr
        subst hr
        exact copy_output_glyph_error hwf hc
      | ok b2 =>
        simp only [hc] at hr
        split at hr
        · simp at hr
        · split at hr <;> simp at hr
  | false =>
    simp only [hb_buffer_replace_output_glyph, Bool.false_eq_true, if_false,
      hb_buffer_add_output_glyph] at h
    cases hr : hb_buffer_add_output_glyphs b 1 1 [toUShort gi] 0xFFFF 0xFFFF a d with
    | undefined => simp [hr, Res.state] at h
    | ok b1 =>
      simp only [hr, Res.state, Option.some.injEq] at h
      subst h
      exact (add_output_glyphs_ok hwf hr).1
    | error b1 =>
      simp only [hr, Res.state, Option.some.injEq] at h
      subst h
      exact add_output_glyphs_error hwf hr

theorem add_glyph_ok {b b' : HB_BufferRec} {g p c : Nat} {a : EnsureAlloc} (hwf : WF b)
    (h : hb_buffer_add_glyph b g p c a = .ok b') :
    WF b' ∧ b'.in_length = b.in_length + 1 ∧ b'.out_length = b.out_length ∧
    b'.in_pos = b.in_pos ∧ b'.out_pos = b.out_pos ∧ b'.separate_out = b.separate_out ∧
    b'.max_ligID = b.max_ligID ∧
    b'.inGlyph b.in_length = some ⟨g, p, c, 0, 0, HB_GLYPH_PROPERTIES_UNKNOWN⟩ ∧
    (∀ i, i < b.in_length → b'.inGlyph i = b.inGlyph i) := by
  unfold hb_buffer_add_glyph at h
  cases he : hb_buffer_ensure b (b.in_length + 1) a with
  | undefined => simp [he] at h
  | error b1 => simp [he] at h
  | ok b1 =>
    obtain ⟨hwf1, hk, hsz, hal⟩ := ensure_ok hwf he
    simp only [he] at h
    cases hw : b1.mem.write b1.in_string b1.in_length
        ⟨g, p, c, 0, 0, HB_GLYPH_PROPERTIES_UNKNOWN⟩ with
    | none => simp [hw] at h
    | some m2 =>
      simp only [hw, Res.ok.injEq] at h
      subst h
      refine ⟨hwf1.with_mem m2 (b1.in_length + 1) b1.out_length b1.in_pos b1.out_pos
          (fun _ _ h => write_capOk hw h) (by have := hk.in_length; omega) hwf1.out_le,
        by simp [hk.in_length], hk.out_length, hk.in_pos, hk.out_pos, hk.separate_out,
        hk.max_ligID, ?_, ?_⟩
      · show m2.read b1.in_string b.in_length = _
        rw [write_read hw, hk.in_length]; simp
      · intro i hi
        show m2.read b1.in_string i = _
        rw [write_read hw, ← hk.in_glyph i (lt_of_lt_of_le hi hwf.in_le), hk.in_length]
        have : i ≠ b.in_length := by omega
        simp [this]
        rfl

theorem add_glyph_error {b b' : HB_BufferRec} {g p c : Nat} {a : EnsureAlloc} (hwf : WF b)
    (h : hb_buffer_add_glyph b g p c a = .error b') : WF b' := by
  unfold hb_buffer_add_glyph at h
  cases he : hb_buffer_ensure b (b.in_length + 1) a with
  | undefined => simp [he] at h
  | error b1 =>
    simp only [he, Res.error.injEq] at h
    subst h
    exact (ensure_error hwf he).1
  | ok b1 =>
    simp only [he] at h
    split at h <;> simp at h

theorem clear_positions_state {b b' : HB_BufferRec} {p : Alloc HB_PositionRec} (hwf : WF b)
    (h : (hb_buffer_clear_positions b p).state = some b') : WF b' := by
  have key : ∀ pos : Option (List HB_PositionRec),
      (∀ c, pos = some c → b.allocated ≤ c.length) →
      ((if b.in_length = 0 then Res.ok { b with positions := pos }
        else
          match pos with
          | none => Res.undefined
          | some cells =>
            if b.in_length ≤ cells.length then
              Res.ok { b with
                positions := some (List.replicate b.in_length HB_PositionRec.zero
                                   ++ cells.drop b.in_length) }
            else Res.undefined).state = some b') → WF b' := by
    intro pos hpos h
    by_cases h0 : b.in_length = 0
    · rw [if_pos h0] at h
      simp only [Res.state, Option.some.injEq] at h
      subst h
      exact hwf.with_positions _ hpos
    · rw [if_neg h0] at h
      cases pos with
      | none => simp [Res.state] at h
      | some cells =>
        simp only [] at h
        have hl : b.in_length ≤ cells.length := le_trans hwf.in_le (hpos cells rfl)
        rw [if_pos hl] at h
        simp only [Res.state, Option.some.injEq] at h
        subst h
        refine hwf.with_positions _ (fun c hc => ?_)
        simp only [Option.some.injEq] at hc
        have := hpos cells rfl
        rw [← hc]; simp; omega
  unfold hb_buffer_clear_positions at h
  cases hp : b.positions with
  | some cells =>
    simp only [hp] at h
    exact key (some cells) (fun c hc => hwf.pos_cap c (by rw [hp]; exact hc)) h
  | none =>
    simp only [hp] at h
    by_cases ha : b.allocated = 0
    · rw [if_pos ha] at h
      exact key none (fun c hc => by simp at hc) h
    · rw [if_neg ha] at h
      cases hok : p.ok
      · rw [if_neg (by simp [hok])] at h
        simp only [Res.state, Option.some.injEq] at h
        subst h
        exact hwf
      · rw [if_pos hok] at h
        exact key (some (List.replicate b.allocated p.fresh)) (fun c hc => by
          simp only [Option.some.injEq] at hc
          rw [← hc]; simp) h

/-- A counter below `2 ^ 31` comes back unchanged from an `int` temporary. -/
theorem FT_ULong_of_int_of_small {x : Nat} (h : x < 2147483648) :
    FT_ULong_of_int (int_of_FT_ULong x) = x := by
  unfold FT_ULong_of_int int_of_FT_ULong
  have h1 : x % 4294967296 = x := Nat.mod_eq_of_lt (by omega)
  rw [h1, if_pos h]
  show ((x : Int) % 18446744073709551616).toNat = x
  omega

theorem swap_WF {b : HB_BufferRec} (hwf : WF b) (hlen : b.in_length < 2147483648) :
    WF (hb_buffer_swap b) := by
  unfold hb_buffer_swap
  cases hsep : b.separate_out
  · simp only [Bool.false_eq_true, if_false, FT_ULong_of_int_of_small hlen]
    exact ⟨hwf.out_le, hwf.in_le, by simpa [hsep] using hwf.out_eq, hwf.in_null, hwf.in_cap,
      hwf.alt_cap, hwf.alt_ne, hwf.sep_alt, hwf.alt_pos, hwf.pos_cap⟩
  · simp only [if_true, FT_ULong_of_int_of_small hlen]
    have halt := hwf.sep_alt hsep
    have hout : b.out_string = b.alt_string := by simpa [hsep] using hwf.out_eq
    have hpos := hwf.alt_pos halt
    have hin : b.in_string ≠ none := fun h => by have := hwf.in_null.1 h; omega
    refine ⟨hwf.out_le, hwf.in_le, by simp [hsep], ?_, fun _ => ?_, fun _ => hwf.in_cap hin,
      fun _ => ?_, fun _ => hin, fun _ => hpos, hwf.pos_cap⟩
    · show b.out_string = none ↔ b.allocated = 0
      rw [hout]
      exact ⟨fun h => absurd h halt, fun h => by omega⟩
    · show b.mem.capOk b.out_string b.allocated
      rw [hout]; exact hwf.alt_cap halt
    · show b.in_string ≠ b.out_string
      rw [hout]; exact Ne.symm (hwf.alt_ne halt)

theorem clear_output_WF {b : HB_BufferRec} (hwf : WF b) : WF (hb_buffer_clear_output b) :=
  ⟨hwf.in_le, Nat.zero_le _, by simp [hb_buffer_clear_output], hwf.in_null, hwf.in_cap,
    hwf.alt_cap, hwf.alt_ne, by simp [hb_buffer_clear_output], hwf.alt_pos, hwf.pos_cap⟩

theorem clear_WF {b : HB_BufferRec} (hwf : WF b) : WF (hb_buffer_clear b) :=
  ⟨Nat.zero_le _, Nat.zero_le _, by simp [hb_buffer_clear], hwf.in_null, hwf.in_cap,
    hwf.alt_cap, hwf.alt_ne, by simp [hb_buffer_clear], hwf.alt_pos, hwf.pos_cap⟩

theorem allocate_ligid_WF {b : HB_BufferRec} (hwf : WF b) : WF (hb_buffer_allocate_ligid b).2 :=
  ⟨hwf.in_le, hwf.out_le, hwf.out_eq, hwf.in_null, hwf.in_cap, hwf.alt_cap, hwf.alt_ne,
    hwf.sep_alt, hwf.alt_pos, hwf.pos_cap⟩

theorem new_WF : WF hb_buffer_new :=
  ⟨le_refl _, le_refl _, rfl, ⟨fun _ => rfl, fun _ => rfl⟩, fun h => absurd rfl h,
    fun h => absurd rfl h, fun h => absurd rfl h, fun h => (by cases h), fun h => absurd rfl h,
    fun _ h => (by cases h)⟩

theorem state_cases {α : Type} {r : Res α} {x : α} (h : r.state = some x) :
    r = .ok x ∨ r = .error x := by
  cases r with
  | ok a =>
    simp only [Res.state, Option.some.injEq] at h
    exact Or.inl (by rw [h])
  | error a =>
    simp only [Res.state, Option.some.injEq] at h
    exact Or.inr (by rw [h])
  | undefined => simp [Res.state] at h

/-- Every public call keeps the representation invariant, whether it returns
`HB_Err_Ok` or an allocation error. -/
theorem step_WF {b b' : HB_BufferRec} (hwf : WF b) (op : Op)
    (h : (op.run b).state = some b') : WF b' := by
  cases op with
  | add_glyph g p c a =>
    rcases state_cases h with h | h
    · exact (add_glyph_ok hwf h).1
    · exact add_glyph_error hwf h
  | add_output_glyphs k m ids c l a d =>
    rcases state_cases h with h | h
    · exact (add_output_glyphs_ok hwf h).1
    · exact add_output_glyphs_error hwf h
  | add_output_glyph g c l a d =>
    rcases state_cases h with h | h
    · exact (add_output_glyphs_ok hwf h).1
    · exact add_output_glyphs_error hwf h
  | copy_output_glyph a =>
    rcases state_cases h with h | h
    · exact (copy_output_glyph_ok hwf h).1
    · exact copy_output_glyph_error hwf h
  | replace_output_glyph g i a d => exact replace_output_glyph_state hwf h
  | swap =>
    simp only [Op.run] at h
    split at h
    · rename_i hlen
      simp only [Res.state, Option.some.injEq] at h
      subst h; exact swap_WF hwf hlen
    · simp [Res.state] at h
  | clear_output =>
    simp only [Op.run, Res.state, Option.some.injEq] at h
    subst h; exact clear_output_WF hwf
  | clear =>
    simp only [Op.run, Res.state, Option.some.injEq] at h
    subst h; exact clear_WF hwf
  | clear_positions p => exact clear_positions_state hwf h
  | allocate_ligid =>
    simp only [Op.run, Res.state, Option.some.injEq] at h
    subst h; exact allocate_ligid_WF hwf

theorem runOps_WF {b b' : HB_BufferRec} (hwf : WF b) (ops : List Op)
    (h : runOps b ops = some b') : WF b' := by
  induction ops generalizing b with
  | nil =>
    simp only [runOps, Option.some.injEq] at h
    subst h; exact hwf
  | cons op ops ih =>
    simp only [runOps] at h
    cases hs : (op.run b).state with
    | none => simp [hs] at h
    | some b1 =>
      simp only [hs] at h
      exact ih (step_WF hwf op hs) h

/-- Every reachable buffer state satisfies the representation invariant. -/
theorem reachable_WF {b : HB_BufferRec} (h : Reachable b) : WF b := by
  obtain ⟨ops, hops⟩ := h
  exact runOps_WF new_WF ops hops

/-! ## One-for-one passes on an aliased buffer -/

theorem copy_aliased {b : HB_BufferRec} (a : EnsureAlloc) (hsep : b.separate_out = false)
    (hcap : b.out_pos + 1 ≤ b.allocated) :
    hb_buffer_copy_output_glyph b a
      = .ok { b with in_pos := b.in_pos + 1, out_pos := b.out_pos + 1,
                     out_length := b.out_pos + 1 } := by
  unfold hb_buffer_copy_output_glyph
  rw [ensure_noop a hcap]
  simp only []
  rw [if_neg (by simp [hsep])]

/-- One call of an in-place pass on an aliased buffer whose cursors agree:
it returns `HB_Err_Ok`, stays aliased, advances both cursors and rewrites at
most the glyph under the cursor. -/
theorem pass_step {b : HB_BufferRec} (c : PassCall) (hwf : WF b)
    (hsep : b.separate_out = false) (hcur : b.out_pos = b.in_pos)
    (hpos : b.in_pos < b.in_length) :
    ∃ b1, c.op.run b = .ok b1 ∧ WF b1 ∧ b1.separate_out = false ∧
      b1.in_pos = b.in_pos + 1 ∧ b1.out_pos = b.in_pos + 1 ∧ b1.out_length = b.in_pos + 1 ∧
      b1.in_length = b.in_length ∧
      (∀ i, i ≠ b.in_pos → b1.inGlyph i = b.inGlyph i) ∧
      ∃ g, b.inGlyph b.in_pos = some g ∧ b1.inGlyph b.in_pos = some (c.result g) := by
  have hlt : b.in_pos < b.allocated := lt_of_lt_of_le hpos hwf.in_le
  have hcap : b.out_pos + 1 ≤ b.allocated := by omega
  obtain ⟨g, hg⟩ := hwf.inGlyph_some hlt
  have hcopy := copy_aliased c.a hsep hcap
  have hwf1 : WF { b with in_pos := b.in_pos + 1, out_pos := b.out_pos + 1,
                          out_length := b.out_pos + 1 } :=
    hwf.with_mem b.mem b.in_length (b.out_pos + 1) (b.in_pos + 1) (b.out_pos + 1)
      (fun _ _ h => h) hwf.in_le hcap
  cases hc : c.glyph with
  | none =>
    refine ⟨_, by simp only [PassCall.op, hc, Op.run]; exact hcopy, hwf1, hsep, rfl,
      by simp [hcur], by simp [hcur], rfl, fun _ _ => rfl, g, hg, ?_⟩
    simp only [PassCall.result, hc]
    exact hg
  | some gi =>
    have hout := hwf.out_eq_in hsep
    have hread : b.mem.read b.out_string b.out_pos = some g := by
      rw [hout, hcur]; exact hg
    obtain ⟨cells, hcells, hl⟩ := hwf.in_cap (fun h => by have := hwf.in_null.1 h; omega)
    obtain ⟨m2, hm2⟩ := write_defined (p := b.out_string) (i := b.out_pos)
      (by rw [hout]; exact hcells) (by omega) { g with gindex := gi }
    have hrun : c.op.run b
        = .ok { b with in_pos := b.in_pos + 1, out_pos := b.out_pos + 1,
                       out_length := b.out_pos + 1, mem := m2 } := by
      simp only [PassCall.op, hc, Op.run, hb_buffer_replace_output_glyph, if_true, hcopy,
        Nat.add_sub_cancel, hread, hm2]
    refine ⟨_, hrun, ?_, hsep, rfl, by simp [hcur], by simp [hcur], rfl, ?_, g, hg, ?_⟩
    · exact hwf.with_mem m2 b.in_length (b.out_pos + 1) (b.in_pos + 1) (b.out_pos + 1)
        (fun _ _ h => write_capOk hm2 h) hwf.in_le hcap
    · intro i hi
      show m2.read b.in_string i = b.mem.read b.in_string i
      rw [write_read hm2, hcur]
      simp [hi]
    · show m2.read b.in_string b.in_pos = _
      rw [write_read hm2, hout, hcur]
      simp [PassCall.result, hc]

theorem pass_spec (calls : List PassCall) :
    ∀ (b : HB_BufferRec), WF b → b.separate_out = false → b.out_pos = b.in_pos →
      b.out_length = b.in_pos → b.in_pos + calls.length ≤ b.in_length →
      ∃ b', runPass b calls = .ok b' ∧ WF b' ∧ b'.separate_out = false ∧
        b'.in_pos = b.in_pos + calls.length ∧ b'.out_pos = b.in_pos + calls.length ∧
        b'.out_length = b.in_pos + calls.length ∧ b'.in_length = b.in_length ∧
        (∀ i, i < b.in_pos ∨ b.in_pos + calls.length ≤ i → b'.inGlyph i = b.inGlyph i) ∧
        (∀ j (hj : j < calls.length), ∃ g, b.inGlyph (b.in_pos + j) = some g ∧
          b'.inGlyph (b.in_pos + j) = some ((calls.get ⟨j, hj⟩).result g)) := by
  induction calls with
  | nil =>
    intro b hwf hsep hcur hlen _
    exact ⟨b, rfl, hwf, hsep, rfl, by simpa using hcur, by simpa using hlen, rfl,
      fun _ _ => rfl, fun j hj => absurd hj (by simp)⟩
  | cons c cs ih =>
    intro b hwf hsep hcur hlen hle
    simp only [List.length_cons] at hle
    obtain ⟨b1, hrun, hwf1, hsep1, hip1, hop1, hol1, hil1, hother1, g, hg, hg1⟩ :=
      pass_step c hwf hsep hcur (by omega)
    obtain ⟨b', hrun', hwf', hsep', hip', hop', hol', hil', hother', hcalls'⟩ :=
      ih b1 hwf1 hsep1 (by omega) (by omega) (by omega)
    refine ⟨b', by simp only [runPass, hrun]; exact hrun', hwf', hsep', ?_, ?_, ?_, ?_, ?_, ?_⟩
    · simp only [List.length_cons]; omega
    · simp only [List.length_cons]; omega
    · simp only [List.length_cons]; omega
    · omega
    · intro i hi
      simp only [List.length_cons] at hi
      rw [hother' i (by omega), hother1 i (by omega)]
    · intro j hj
      cases j with
      | zero =>
        refine ⟨g, hg, ?_⟩
        rw [Nat.add_zero, hother' _ (Or.inl (by omega)), hg1]
        rfl
      | succ k =>
        simp only [List.length_cons] at hj
        obtain ⟨g', hg', hr'⟩ := hcalls' k (by omega)
        have e : b1.in_pos + k = b.in_pos + (k + 1) := by omega
        rw [e] at hg' hr'
        refine ⟨g', ?_, ?_⟩
        · rw [← hother1 _ (by omega)]; exact hg'
        · rw [hr']; rfl

/-! ## Replacement of the current glyph -/

theorem replace_not_inplace_eq (b : HB_BufferRec) (gi : Nat) (a : EnsureAlloc)
    (d : Alloc HB_GlyphItemRec) :
    hb_buffer_replace_output_glyph b gi false a d
      = hb_buffer_add_output_glyphs b 1 1 [toUShort gi] 0xFFFF 0xFFFF a d := rfl

/-- What `hb_buffer_replace_output_glyph` leaves at the old `out_pos`, for both
values of `inplace`: the four inherited fields of the input glyph that was at
`in_pos`, and the glyph id as given (`inplace = TRUE`) or reduced to 16 bits
(`inplace = FALSE`). -/
theorem replace_output_glyph_fields {b b' : HB_BufferRec} {gi : Nat} {inplace : Bool}
    {a : EnsureAlloc} {d : Alloc HB_GlyphItemRec} (hwf : WF b)
    (hpos : b.in_pos < b.in_length) (hcur : b.separate_out = false → b.in_pos = b.out_pos)
    (h : hb_buffer_replace_output_glyph b gi inplace a d = .ok b') :
    ∃ cur g, b.inGlyph b.in_pos = some cur ∧ b'.outGlyph b.out_pos = some g ∧
      g.gindex = (if inplace then gi else toUShort gi) ∧ g.properties = cur.properties ∧
      g.cluster = cur.cluster ∧ g.component = cur.component ∧ g.ligID = cur.ligID := by
  have hlt := lt_of_lt_of_le hpos hwf.in_le
  cases inplace with
  | true =>
    obtain ⟨b1, g0, hc, hg0, -, -, -, -, -, -, -, -, hout, -, -⟩ := replace_inplace_ok hwf h
    obtain ⟨-, -, -, -, -, -, -, -, hsepc, haliasc, -, -⟩ := copy_output_glyph_ok hwf hc
    have hin : b.inGlyph b.in_pos = some g0 := by
      rw [← hg0]
      cases hsep : b.separate_out
      · rw [← hcur hsep]; exact (haliasc hsep _ hlt).symm
      · exact (hsepc hsep hlt).symm
    exact ⟨g0, _, hin, hout, rfl, rfl, rfl, rfl, rfl⟩
  | false =>
    rw [replace_not_inplace_eq] at h
    obtain ⟨-, -, -, -, -, -, -, ⟨cur, hcur', hw⟩, -, -⟩ := add_output_glyphs_ok hwf h
    obtain ⟨g, hg, hout⟩ := hw 0 (by omega)
    simp only [List.getElem?_cons_zero, Option.some.injEq] at hg
    subst hg
    exact ⟨cur, _, hcur' hlt, hout, rfl, rfl, rfl, rfl, rfl⟩

/-! ## The claims -/

theorem threeGlyphs_reachable : Reachable threeGlyphs := ⟨appendThree, rfl⟩

theorem threeGlyphs_WF : WF threeGlyphs := reachable_WF threeGlyphs_reachable

theorem ligatureFormed_reachable : Reachable ligatureFormed :=
  ⟨appendThree ++ [Op.add_output_glyphs 2 1 [55] 0xFFFF 1 ensureOk allocOk], rfl⟩

theorem ligatureFormed_WF : WF ligatureFormed := reachable_WF ligatureFormed_reachable

/-- C1: for every buffer satisfying the representation invariant (as every
reachable buffer does), separated or not, with `in_pos < in_length`, a
successful `hb_buffer_add_output_glyphs` leaves at each output position
`out_pos + i`, `i < num_out`, a glyph whose `gindex` is `glyph_data[i]` and
whose `properties` and `cluster` are those of the input glyph that was at
`in_pos` before the call. -/
theorem add_output_glyphs_inherits (b b' : HB_BufferRec) (num_in num_out : Nat)
    (glyph_data : List Nat) (component ligID : Nat) (a : EnsureAlloc)
    (d : Alloc HB_GlyphItemRec) (hwf : WF b) (hpos : b.in_pos < b.in_length)
    (h : hb_buffer_add_output_glyphs b num_in num_out glyph_data component ligID a d = .ok b') :
    ∃ cur, b.inGlyph b.in_pos = some cur ∧
      ∀ i, i < num_out → ∃ g, b'.outGlyph (b.out_pos + i) = some g ∧
        glyph_data[i]? = some g.gindex ∧ g.properties = cur.properties ∧
        g.cluster = cur.cluster := by
  obtain ⟨-, -, -, -, -, -, -, ⟨cur, hcur, hout⟩, -, -⟩ := add_output_glyphs_ok hwf h
  refine ⟨cur, hcur (lt_of_lt_of_le hpos hwf.in_le), fun i hi => ?_⟩
  obtain ⟨g, hg, hw⟩ := hout i hi
  exact ⟨_, hw, hg, rfl, rfl⟩

theorem add_output_glyphs_inherits_witness :
    WF threeGlyphs ∧ threeGlyphs.in_pos < threeGlyphs.in_length ∧
    hb_buffer_add_output_glyphs threeGlyphs 2 1 [55] 0xFFFF 1 ensureOk allocOk
      = .ok ligatureFormed ∧
    ∃ cur, threeGlyphs.inGlyph threeGlyphs.in_pos = some cur ∧
      ∀ i, i < 1 → ∃ g, ligatureFormed.outGlyph (threeGlyphs.out_pos + i) = some g ∧
        [55][i]? = some g.gindex ∧ g.properties = cur.properties ∧ g.cluster = cur.cluster :=
  ⟨threeGlyphs_WF, by decide, rfl,
    add_output_glyphs_inherits threeGlyphs ligatureFormed 2 1 [55] 0xFFFF 1 ensureOk allocOk
      threeGlyphs_WF (by decide) rfl⟩

/-- C2: for every non-separated buffer satisfying the representation invariant
with `out_pos = out_length ≤ in_length` and `in_pos < in_length`, a successful
`hb_buffer_add_output_glyphs` ends separated, leaves the output glyphs below
the old `out_pos` as they were and leaves every input glyph unchanged. -/
theorem add_output_glyphs_separates (b b' : HB_BufferRec) (num_in num_out : Nat)
    (glyph_data : List Nat) (component ligID : Nat) (a : EnsureAlloc)
    (d : Alloc HB_GlyphItemRec) (hwf : WF b) (_hsep : b.separate_out = false)
    (hcur : b.out_pos = b.out_length) (_hle : b.out_length ≤ b.in_length)
    (_hpos : b.in_pos < b.in_length)
    (h : hb_buffer_add_output_glyphs b num_in num_out glyph_data component ligID a d = .ok b') :
    b'.separate_out = true ∧
    (∀ i, i < b.out_pos → ∃ g, b.outGlyph i = some g ∧ b'.outGlyph i = some g) ∧
    (∀ i, i < b.in_length → ∃ g, b.inGlyph i = some g ∧ b'.inGlyph i = some g) := by
  obtain ⟨-, hs, -, -, -, -, -, -, hin, hout⟩ := add_output_glyphs_ok hwf h
  refine ⟨hs, fun i hi => ?_, fun i hi => ?_⟩
  · obtain ⟨g, hg⟩ := hwf.outGlyph_some (i := i) (by have := hwf.out_le; omega)
    exact ⟨g, hg, by rw [hout i hi (by omega), hg]⟩
  · have hlt := lt_of_lt_of_le hi hwf.in_le
    obtain ⟨g, hg⟩ := hwf.inGlyph_some hlt
    exact ⟨g, hg, by rw [hin i hlt, hg]⟩

theorem oneCopied_reachable : Reachable oneCopied :=
  ⟨appendThree ++ [Op.copy_output_glyph ensureOk], rfl⟩

theorem oneCopied_WF : WF oneCopied := reachable_WF oneCopied_reachable

theorem add_output_glyphs_separates_witness :
    WF oneCopied ∧ oneCopied.separate_out = false ∧ oneCopied.out_pos = oneCopied.out_length ∧
    oneCopied.out_length ≤ oneCopied.in_length ∧ oneCopied.in_pos < oneCopied.in_length ∧
    hb_buffer_add_output_glyphs oneCopied 1 2 [21, 22] 3 0xFFFF ensureOk allocOk
      = .ok decomposed ∧
    (decomposed.separate_out = true ∧
     (∀ i, i < oneCopied.out_pos →
        ∃ g, oneCopied.outGlyph i = some g ∧ decomposed.outGlyph i = some g) ∧
     (∀ i, i < oneCopied.in_length →
        ∃ g, oneCopied.inGlyph i = some g ∧ decomposed.inGlyph i = some g)) :=
  ⟨oneCopied_WF, rfl, rfl, by decide, by decide, rfl,
    add_output_glyphs_separates oneCopied decomposed 1 2 [21, 22] 3 0xFFFF ensureOk allocOk
      oneCopied_WF rfl rfl (by decide) (by decide) rfl⟩

/-- C3: for every buffer satisfying the representation invariant with
`in_pos < in_length`, after a successful `hb_buffer_add_output_glyphs` every
produced glyph has the `component` of the input glyph that was at `in_pos` when
the `component` argument is `0xFFFF` and the argument itself otherwise, and,
independently, the same for the `ligID` argument and the `ligID` field. -/
theorem add_output_glyphs_component_ligID (b b' : HB_BufferRec) (num_in num_out : Nat)
    (glyph_data : List Nat) (component ligID : Nat) (a : EnsureAlloc)
    (d : Alloc HB_GlyphItemRec) (hwf : WF b) (hpos : b.in_pos < b.in_length)
    (h : hb_buffer_add_output_glyphs b num_in num_out glyph_data component ligID a d = .ok b') :
    ∃ cur, b.inGlyph b.in_pos = some cur ∧
      ∀ i, i < num_out → ∃ g, b'.outGlyph (b.out_pos + i) = some g ∧
        g.component = (if component = 0xFFFF then cur.component else component) ∧
        g.ligID = (if ligID = 0xFFFF then cur.ligID else ligID) := by
  obtain ⟨-, -, -, -, -, -, -, ⟨cur, hcur, hout⟩, -, -⟩ := add_output_glyphs_ok hwf h
  refine ⟨cur, hcur (lt_of_lt_of_le hpos hwf.in_le), fun i hi => ?_⟩
  obtain ⟨g, -, hw⟩ := hout i hi
  exact ⟨_, hw, rfl, rfl⟩

theorem add_output_glyphs_component_ligID_witness :
    WF oneCopied ∧ oneCopied.in_pos < oneCopied.in_length ∧
    hb_buffer_add_output_glyphs oneCopied 1 2 [21, 22] 3 0xFFFF ensureOk allocOk
      = .ok decomposed ∧
    ∃ cur, oneCopied.inGlyph oneCopied.in_pos = some cur ∧
      ∀ i, i < 2 → ∃ g, decomposed.outGlyph (oneCopied.out_pos + i) = some g ∧
        g.component = (if 3 = 0xFFFF then cur.component else 3) ∧
        g.ligID = (if 0xFFFF = 0xFFFF then cur.ligID else 0xFFFF) :=
  ⟨oneCopied_WF, by decide, rfl,
    add_output_glyphs_component_ligID oneCopied decomposed 1 2 [21, 22] 3 0xFFFF ensureOk
      allocOk oneCopied_WF (by decide) rfl⟩

/-- C4, as stated, fails: after `hb_buffer_clear_output` the cursors of a
non-separated buffer differ (`in_pos = 1`, `out_pos = 0`), and a successful
`hb_buffer_copy_output_glyph` writes nothing, so the output glyph at the old
`out_pos` is glyph `10` while the input glyph at the old `in_pos` was glyph `11`. -/
theorem copy_output_glyph_after_clear_output :
    runOps hb_buffer_new
      [.add_glyph 10 0 0 ensureOk, .add_glyph 11 0 1 ensureOk, .copy_output_glyph ensureOk,
       .clear_output] = some outputCleared ∧
    outputCleared.in_pos < outputCleared.in_length ∧
    hb_buffer_copy_output_glyph outputCleared ensureOk = .ok clearedThenCopy ∧
    outputCleared.inGlyph outputCleared.in_pos = some (inputGlyph 11 1) ∧
    clearedThenCopy.outGlyph outputCleared.out_pos = some (inputGlyph 10 0) ∧
    clearedThenCopy.outGlyph outputCleared.out_pos ≠ outputCleared.inGlyph outputCleared.in_pos :=
  ⟨rfl, by decide, rfl, rfl, rfl, by decide⟩

/-- C4, amended: for every reachable buffer with `in_pos < in_length`, and with
`in_pos = out_pos` whenever it is not separated, after a successful
`hb_buffer_copy_output_glyph` the output glyph at the old `out_pos` is the
input glyph that was at the old `in_pos`, in every field. -/
theorem copy_output_glyph_copies (b b' : HB_BufferRec) (a : EnsureAlloc)
    (hr : Reachable b) (hpos : b.in_pos < b.in_length)
    (hcur : b.separate_out = false → b.in_pos = b.out_pos)
    (h : hb_buffer_copy_output_glyph b a = .ok b') :
    ∃ g, b.inGlyph b.in_pos = some g ∧ b'.outGlyph b.out_pos = some g := by
  have hwf := reachable_WF hr
  have hlt := lt_of_lt_of_le hpos hwf.in_le
  obtain ⟨g, hg⟩ := hwf.inGlyph_some hlt
  obtain ⟨-, -, -, -, -, -, -, -, hsepc, haliasc, -, -⟩ := copy_output_glyph_ok hwf h
  refine ⟨g, hg, ?_⟩
  cases hsep : b.separate_out
  · rw [← hcur hsep, haliasc hsep _ hlt, hg]
  · rw [hsepc hsep hlt, hg]

theorem copy_output_glyph_copies_witness :
    Reachable ligatureFormed ∧ ligatureFormed.in_pos < ligatureFormed.in_length ∧
    (ligatureFormed.separate_out = false → ligatureFormed.in_pos = ligatureFormed.out_pos) ∧
    hb_buffer_copy_output_glyph ligatureFormed ensureOk = .ok ligatureThenCopy ∧
    ligatureThenCopy.outGlyph 1 = some (inputGlyph 12 2) ∧
    ∃ g, ligatureFormed.inGlyph ligatureFormed.in_pos = some g ∧
      ligatureThenCopy.outGlyph ligatureFormed.out_pos = some g :=
  ⟨ligatureFormed_reachable, by decide, fun h => absurd h (by decide), rfl, rfl,
    copy_output_glyph_copies ligatureFormed ligatureThenCopy ensureOk
      ligatureFormed_reachable (by decide) (fun h => absurd h (by decide)) rfl⟩

/-- C5: on a non-separated buffer (satisfying the representation invariant) with
`in_pos = out_pos = 0` and `out_length = 0`, a pass of `in_length` calls, each
`hb_buffer_copy_output_glyph` or `hb_buffer_replace_output_glyph` with
`inplace = TRUE`, returns `HB_Err_Ok` at every call whatever the allocator
does, leaves `separate_out` false after every call, ends with
`out_length = in_length`, and output glyph `i` is the input glyph `i` of before
the pass with `gindex` replaced where call `i` was a replacement. -/
theorem inplace_pass (b : HB_BufferRec) (calls : List PassCall) (hwf : WF b)
    (hsep : b.separate_out = false) (hin : b.in_pos = 0) (hout : b.out_pos = 0)
    (hlen : b.out_length = 0) (hn : calls.length = b.in_length) :
    (∀ k, k ≤ calls.length →
      ∃ bk, runPass b (calls.take k) = .ok bk ∧ bk.separate_out = false) ∧
    ∃ b', runPass b calls = .ok b' ∧ b'.separate_out = false ∧ b'.out_length = b.in_length ∧
      ∀ i (hi : i < calls.length), ∃ g, b.inGlyph i = some g ∧
        b'.outGlyph i = some ((calls.get ⟨i, hi⟩).result g) := by
  constructor
  · intro k hk
    obtain ⟨bk, hrun, -, hs, -⟩ := pass_spec (calls.take k) b hwf hsep (by omega) (by omega)
      (by simp; omega)
    exact ⟨bk, hrun, hs⟩
  · obtain ⟨b', hrun, hwf', hs, -, -, hol, -, -, hg⟩ :=
      pass_spec calls b hwf hsep (by omega) (by omega) (by omega)
    refine ⟨b', hrun, hs, by omega, fun i hi => ?_⟩
    obtain ⟨g, h1, h2⟩ := hg i hi
    rw [hin, Nat.zero_add] at h1 h2
    refine ⟨g, h1, ?_⟩
    show b'.mem.read b'.out_string i = _
    rw [hwf'.out_eq_in hs]
    exact h2

theorem inplace_pass_witness :
    WF threeGlyphs ∧ threeGlyphs.separate_out = false ∧ threeGlyphs.in_pos = 0 ∧
    threeGlyphs.out_pos = 0 ∧ threeGlyphs.out_length = 0 ∧
    replaceThenCopy.length = threeGlyphs.in_length ∧
    runPass threeGlyphs replaceThenCopy = .ok replacedInPlace ∧
    replacedInPlace.outGlyph 0 = some ⟨99, 0, 0, 0, 0, HB_GLYPH_PROPERTIES_UNKNOWN⟩ ∧
    ((∀ k, k ≤ replaceThenCopy.length →
      ∃ bk, runPass threeGlyphs (replaceThenCopy.take k) = .ok bk ∧ bk.separate_out = false) ∧
    ∃ b', runPass threeGlyphs replaceThenCopy = .ok b' ∧ b'.separate_out = false ∧
      b'.out_length = threeGlyphs.in_length ∧
      ∀ i (hi : i < replaceThenCopy.length), ∃ g, threeGlyphs.inGlyph i = some g ∧
        b'.outGlyph i = some ((replaceThenCopy.get ⟨i, hi⟩).result g)) :=
  ⟨threeGlyphs_WF, rfl, rfl, rfl, rfl, rfl, rfl, rfl,
    inplace_pass threeGlyphs replaceThenCopy threeGlyphs_WF rfl rfl rfl rfl rfl⟩

/-- C6: at `glyph_index = 0x10000`, a value of the `FT_UInt` parameter,
`hb_buffer_replace_output_glyph` with `inplace = FALSE` leaves glyph id `0` in
the output, because `hb_buffer_add_output_glyph` converts the id to `FT_UShort`;
with `inplace = TRUE` the same call leaves glyph id `0x10000`. -/
theorem replace_output_glyph_truncates :
    runOps hb_buffer_new appendThree = some threeGlyphs ∧
    threeGlyphs.in_pos < threeGlyphs.in_length ∧ threeGlyphs.in_pos = threeGlyphs.out_pos ∧
    threeGlyphs.inGlyph threeGlyphs.in_pos = some (inputGlyph 10 0) ∧
    (∃ b', hb_buffer_replace_output_glyph threeGlyphs 0x10000 false ensureOk allocOk = .ok b' ∧
      b'.outGlyph threeGlyphs.out_pos = some ⟨0, 0, 0, 0, 0, HB_GLYPH_PROPERTIES_UNKNOWN⟩) ∧
    (∃ b', hb_buffer_replace_output_glyph threeGlyphs 0x10000 true ensureOk allocOk = .ok b' ∧
      b'.outGlyph threeGlyphs.out_pos
        = some ⟨0x10000, 0, 0, 0, 0, HB_GLYPH_PROPERTIES_UNKNOWN⟩) :=
  ⟨rfl, by decide, rfl, rfl, ⟨_, rfl, rfl⟩, ⟨_, rfl, rfl⟩⟩

/-- While the input length and the input cursor are below `2 ^ 31`, the values
the `int` temporaries hold unchanged, `hb_buffer_swap` exchanges the two
lengths and the two cursors, makes the former output stream the input stream
glyph by glyph, and, when the buffer was separated, makes the former primary
array the secondary array. -/
theorem swap_promotes_output_of_small (b : HB_BufferRec) (hwf : WF b)
    (hlen : b.in_length < 2147483648) (hpos : b.in_pos < 2147483648) :
    (hb_buffer_swap b).in_length = b.out_length ∧
    (hb_buffer_swap b).out_length = b.in_length ∧
    (hb_buffer_swap b).in_pos = b.out_pos ∧ (hb_buffer_swap b).out_pos = b.in_pos ∧
    (∀ i, i < b.out_length →
      ∃ g, b.outGlyph i = some g ∧ (hb_buffer_swap b).inGlyph i = some g) ∧
    (b.separate_out = true →
      (hb_buffer_swap b).alt_string = b.in_string ∧
      ∀ i, (hb_buffer_swap b).altGlyph i = b.inGlyph i) := by
  have hout := hwf.out_eq
  have hl := FT_ULong_of_int_of_small hlen
  have hp := FT_ULong_of_int_of_small hpos
  cases hsep : b.separate_out
  · simp only [hsep, Bool.false_eq_true, if_false] at hout
    refine ⟨by simp [hb_buffer_swap, hsep], by simp [hb_buffer_swap, hsep, hl],
      by simp [hb_buffer_swap, hsep], by simp [hb_buffer_swap, hsep, hp], fun i hi => ?_,
      fun h => absurd h (by simp)⟩
    obtain ⟨g, hg⟩ := hwf.outGlyph_some (lt_of_lt_of_le hi hwf.out_le)
    refine ⟨g, hg, ?_⟩
    rw [← hg]
    simp [hb_buffer_swap, hsep, HB_BufferRec.inGlyph, HB_BufferRec.outGlyph, hout]
  · refine ⟨by simp [hb_buffer_swap, hsep], by simp [hb_buffer_swap, hsep, hl],
      by simp [hb_buffer_swap, hsep], by simp [hb_buffer_swap, hsep, hp], fun i hi => ?_,
      fun _ => ⟨by simp [hb_buffer_swap, hsep], fun i => by
        simp [hb_buffer_swap, hsep, HB_BufferRec.inGlyph, HB_BufferRec.altGlyph]⟩⟩
    obtain ⟨g, hg⟩ := hwf.outGlyph_some (lt_of_lt_of_le hi hwf.out_le)
    refine ⟨g, hg, ?_⟩
    rw [← hg]
    simp [hb_buffer_swap, hsep, HB_BufferRec.inGlyph, HB_BufferRec.outGlyph]

/-- While the two lengths and the two cursors are below `2 ^ 31`, two calls of
`hb_buffer_swap` in a row give back the buffer of before: every field of the
record (lengths, cursors, `separate_out`, the three array pointers) and the
memory behind them. -/
theorem swap_swap_of_small (b : HB_BufferRec) (hwf : WF b)
    (hil : b.in_length < 2147483648) (hol : b.out_length < 2147483648)
    (hip : b.in_pos < 2147483648) (hop : b.out_pos < 2147483648) :
    hb_buffer_swap (hb_buffer_swap b) = b := by
  have hout := hwf.out_eq
  cases b with
  | mk allocated in_length out_length in_pos out_pos separate_out in_string out_string
      alt_string positions max_ligID mem =>
    simp only at hil hol hip hop
    cases separate_out
    · simp only [hb_buffer_swap, Bool.false_eq_true, if_false, FT_ULong_of_int_of_small hil,
        FT_ULong_of_int_of_small hol, FT_ULong_of_int_of_small hip,
        FT_ULong_of_int_of_small hop]
    · simp only [if_true] at hout
      subst hout
      simp only [hb_buffer_swap, if_true, FT_ULong_of_int_of_small hil,
        FT_ULong_of_int_of_small hol, FT_ULong_of_int_of_small hip,
        FT_ULong_of_int_of_small hop]

/-- C10: for every buffer satisfying the representation invariant, every
requested size and every outcome of the three allocator requests, when
`hb_buffer_ensure` returns an error the lengths, the cursors, `separate_out`,
`allocated`, the storage backing the output view and the glyphs of the input
and output streams are what they were before the call. -/
theorem ensure_failure_keeps_state (b b' : HB_BufferRec) (size : Nat) (a : EnsureAlloc)
    (hwf : WF b) (h : hb_buffer_ensure b size a = .error b') :
    b'.in_length = b.in_length ∧ b'.out_length = b.out_length ∧ b'.in_pos = b.in_pos ∧
    b'.out_pos = b.out_pos ∧ b'.separate_out = b.separate_out ∧
    b'.allocated = b.allocated ∧ SameBacking b b' ∧
    (∀ i, i < b.in_length → ∃ g, b.inGlyph i = some g ∧ b'.inGlyph i = some g) ∧
    (∀ i, i < b.out_length → ∃ g, b.outGlyph i = some g ∧ b'.outGlyph i = some g) := by
  obtain ⟨-, hk, hal, hback⟩ := ensure_error hwf h
  refine ⟨hk.in_length, hk.out_length, hk.in_pos, hk.out_pos, hk.separate_out, hal, hback,
    fun i hi => ?_, fun i hi => ?_⟩
  · have hlt := lt_of_lt_of_le hi hwf.in_le
    obtain ⟨g, hg⟩ := hwf.inGlyph_some hlt
    exact ⟨g, hg, by rw [hk.in_glyph i hlt, hg]⟩
  · have hlt := lt_of_lt_of_le hi hwf.out_le
    obtain ⟨g, hg⟩ := hwf.outGlyph_some hlt
    exact ⟨g, hg, by rw [hk.out_glyph i hlt, hg]⟩

theorem ensure_failure_keeps_state_witness :
    WF ligatureFormed ∧ hb_buffer_ensure ligatureFormed 100 ensureAltFails = .error ensureFailed ∧
    (ensureFailed.in_length = ligatureFormed.in_length ∧
     ensureFailed.out_length = ligatureFormed.out_length ∧
     ensureFailed.in_pos = ligatureFormed.in_pos ∧
     ensureFailed.out_pos = ligatureFormed.out_pos ∧
     ensureFailed.separate_out = ligatureFormed.separate_out ∧
     ensureFailed.allocated = ligatureFormed.allocated ∧
     SameBacking ligatureFormed ensureFailed ∧
     (∀ i, i < ligatureFormed.in_length →
        ∃ g, ligatureFormed.inGlyph i = some g ∧ ensureFailed.inGlyph i = some g) ∧
     (∀ i, i < ligatureFormed.out_length →
        ∃ g, ligatureFormed.outGlyph i = some g ∧ ensureFailed.outGlyph i = some g)) :=
  ⟨ligatureFormed_WF, rfl,
    ensure_failure_keeps_state ligatureFormed ensureFailed 100 ensureAltFails
      ligatureFormed_WF rfl⟩

/-! ## Failure of `hb_buffer_add_output_glyphs` -/

/-- An error of `hb_buffer_add_output_glyphs` comes from `hb_buffer_ensure`, or
from the allocation of the secondary array after `hb_buffer_ensure` succeeded;
in both cases what is left behind is what `hb_buffer_ensure` left. -/
theorem add_output_glyphs_error_cases {b b' : HB_BufferRec} {num_in num_out : Nat}
    {glyph_data : List Nat} {component ligID : Nat} {a : EnsureAlloc}
    {d : Alloc HB_GlyphItemRec} (hwf : WF b)
    (h : hb_buffer_add_output_glyphs b num_in num_out glyph_data component ligID a d
      = .error b') :
    hb_buffer_ensure b (b.out_pos + num_out) a = .error b' ∨
    hb_buffer_ensure b (b.out_pos + num_out) a = .ok b' := by
  unfold hb_buffer_add_output_glyphs at h
  cases he : hb_buffer_ensure b (b.out_pos + num_out) a with
  | undefined => simp [he] at h
  | error b1 =>
    simp only [he, Res.error.injEq] at h
    subst h
    exact Or.inl rfl
  | ok b1 =>
    obtain ⟨hwf1, -⟩ := ensure_ok hwf he
    simp only [he] at h
    cases hs : (if b1.separate_out = false then hb_buffer_duplicate_out_buffer b1 d
        else .ok b1) with
    | undefined => simp [hs] at h
    | error b2 =>
      simp only [hs, Res.error.injEq] at h
      subst h
      rw [separate_step_error hwf1 d hs]
      exact Or.inr rfl
    | ok b2 =>
      simp only [hs] at h
      cases hr : b2.mem.read b2.in_string b2.in_pos with
      | none => simp [hr] at h
      | some cur =>
        simp only [hr] at h
        split at h <;> simp at h

/-- C11, as stated, fails: on the buffer holding glyphs `10, 11, 12` with capacity
`8`, `hb_buffer_add_output_glyphs` producing nine glyphs grows the capacity to
`20`, then returns an error because the secondary array cannot be allocated;
`allocated` is `20` afterwards. -/
theorem add_output_glyphs_failure_grows :
    runOps hb_buffer_new appendThree = some threeGlyphs ∧
    hb_buffer_add_output_glyphs threeGlyphs 1 9 (List.replicate 9 7) 0 0 ensureOk allocFail
      = .error grownThenFailed ∧
    threeGlyphs.allocated = 8 ∧ grownThenFailed.allocated = 20 ∧
    grownThenFailed.allocated ≠ threeGlyphs.allocated :=
  ⟨rfl, rfl, rfl, rfl, by decide⟩

/-- C11, amended: for every buffer satisfying the representation invariant, when
`hb_buffer_add_output_glyphs` returns an error the lengths, the cursors,
`separate_out` and the glyphs of the input and output streams are what they
were before the call, `allocated` has not decreased, and `allocated` is what it
was when the error came from `hb_buffer_ensure`. -/
theorem add_output_glyphs_failure (b b' : HB_BufferRec) (num_in num_out : Nat)
    (glyph_data : List Nat) (component ligID : Nat) (a : EnsureAlloc)
    (d : Alloc HB_GlyphItemRec) (hwf : WF b)
    (h : hb_buffer_add_output_glyphs b num_in num_out glyph_data component ligID a d
      = .error b') :
    b'.in_length = b.in_length ∧ b'.out_length = b.out_length ∧ b'.in_pos = b.in_pos ∧
    b'.out_pos = b.out_pos ∧ b'.separate_out = b.separate_out ∧
    b.allocated ≤ b'.allocated ∧
    (hb_buffer_ensure b (b.out_pos + num_out) a = .error b' → b'.allocated = b.allocated) ∧
    (∀ i, i < b.in_length → ∃ g, b.inGlyph i = some g ∧ b'.inGlyph i = some g) ∧
    (∀ i, i < b.out_length → ∃ g, b.outGlyph i = some g ∧ b'.outGlyph i = some g) := by
  have hk : Kept b b' ∧ b.allocated ≤ b'.allocated := by
    rcases add_output_glyphs_error_cases hwf h with he | he
    · obtain ⟨-, hk, hal, -⟩ := ensure_error hwf he
      exact ⟨hk, by omega⟩
    · obtain ⟨-, hk, -, hal⟩ := ensure_ok hwf he
      exact ⟨hk, hal⟩
  obtain ⟨hk, hal⟩ := hk
  refine ⟨hk.in_length, hk.out_length, hk.in_pos, hk.out_pos, hk.separate_out, hal,
    fun he => (ensure_error hwf he).2.2.1, fun i hi => ?_, fun i hi => ?_⟩
  · have hlt := lt_of_lt_of_le hi hwf.in_le
    obtain ⟨g, hg⟩ := hwf.inGlyph_some hlt
    exact ⟨g, hg, by rw [hk.in_glyph i hlt, hg]⟩
  · have hlt := lt_of_lt_of_le hi hwf.out_le
    obtain ⟨g, hg⟩ := hwf.outGlyph_some hlt
    exact ⟨g, hg, by rw [hk.out_glyph i hlt, hg]⟩

theorem add_output_glyphs_failure_witness :
    WF threeGlyphs ∧
    hb_buffer_add_output_glyphs threeGlyphs 1 9 (List.replicate 9 7) 0 0 ensureOk allocFail
      = .error grownThenFailed ∧
    (grownThenFailed.in_length = threeGlyphs.in_length ∧
     grownThenFailed.out_length = threeGlyphs.out_length ∧
     grownThenFailed.in_pos = threeGlyphs.in_pos ∧
     grownThenFailed.out_pos = threeGlyphs.out_pos ∧
     grownThenFailed.separate_out = threeGlyphs.separate_out ∧
     threeGlyphs.allocated ≤ grownThenFailed.allocated ∧
     (hb_buffer_ensure threeGlyphs (threeGlyphs.out_pos + 9) ensureOk = .error grownThenFailed →
        grownThenFailed.allocated = threeGlyphs.allocated) ∧
     (∀ i, i < threeGlyphs.in_length →
        ∃ g, threeGlyphs.inGlyph i = some g ∧ grownThenFailed.inGlyph i = some g) ∧
     (∀ i, i < threeGlyphs.out_length →
        ∃ g, threeGlyphs.outGlyph i = some g ∧ grownThenFailed.outGlyph i = some g)) :=
  ⟨threeGlyphs_WF, rfl,
    add_output_glyphs_failure threeGlyphs grownThenFailed 1 9 (List.replicate 9 7) 0 0 ensureOk
      allocFail threeGlyphs_WF rfl⟩

theorem ensure_state_max_ligID {b b' : HB_BufferRec} {size : Nat} {a : EnsureAlloc}
    (hwf : WF b) (h : (hb_buffer_ensure b size a).state = some b') :
    b'.max_ligID = b.max_ligID := by
  rcases state_cases h with h | h
  · exact (ensure_ok hwf h).2.1.max_ligID
  · exact (ensure_error hwf h).2.1.max_ligID

theorem add_output_glyphs_max_ligID {b b' : HB_BufferRec} {num_in num_out : Nat}
    {glyph_data : List Nat} {component ligID : Nat} {a : EnsureAlloc}
    {d : Alloc HB_GlyphItemRec} (hwf : WF b)
    (h : (hb_buffer_add_output_glyphs b num_in num_out glyph_data component ligID a d).state
      = some b') : b'.max_ligID = b.max_ligID := by
  rcases state_cases h with h | h
  · exact (add_output_glyphs_ok hwf h).2.2.2.2.2.2.1
  · rcases add_output_glyphs_error_cases hwf h with he | he
    · exact ensure_state_max_ligID hwf (by rw [he]; rfl)
    · exact ensure_state_max_ligID hwf (by rw [he]; rfl)

theorem copy_output_glyph_max_ligID {b b' : HB_BufferRec} {a : EnsureAlloc} (hwf : WF b)
    (h : (hb_buffer_copy_output_glyph b a).state = some b') : b'.max_ligID = b.max_ligID := by
  rcases state_cases h with h | h
  · exact (copy_output_glyph_ok hwf h).2.2.2.2.2.2.1
  · unfold hb_buffer_copy_output_glyph at h
    cases he : hb_buffer_ensure b (b.out_pos + 1) a with
    | undefined => simp [he] at h
    | error b1 =>
      simp only [he, Res.error.injEq] at h
      subst h
      exact ensure_state_max_ligID hwf (by rw [he]; rfl)
    | ok b1 =>
      simp only [he] at h
      split at h <;> simp at h

/-- No public call other than `hb_buffer_allocate_ligid` touches `max_ligID`;
`hb_buffer_allocate_ligid` increments it as a 16-bit value. -/
theorem step_max_ligID {b b' : HB_BufferRec} (hwf : WF b) (op : Op)
    (h : (op.run b).state = some b') :
    b'.max_ligID = if op.isAllocateLigid then toUShort (b.max_ligID + 1) else b.max_ligID := by
  cases op with
  | add_glyph g p c a =>
    simp only [Op.isAllocateLigid, Bool.false_eq_true, if_false]
    rcases state_cases h with h | h
    · exact (add_glyph_ok hwf h).2.2.2.2.2.2.1
    · simp only [Op.run, hb_buffer_add_glyph] at h
      cases he : hb_buffer_ensure b (b.in_length + 1) a with
      | undefined => simp [he] at h
      | error b1 =>
        simp only [he, Res.error.injEq] at h
        subst h
        exact ensure_state_max_ligID hwf (by rw [he]; rfl)
      | ok b1 =>
        simp only [he] at h
        split at h <;> simp at h
  | add_output_glyphs k m ids c l a d =>
    exact add_output_glyphs_max_ligID hwf h
  | add_output_glyph g c l a d =>
    exact add_output_glyphs_max_ligID hwf h
  | copy_output_glyph a =>
    exact copy_output_glyph_max_ligID hwf h
  | replace_output_glyph g i a d =>
    simp only [Op.isAllocateLigid, Bool.false_eq_true, if_false]
    cases i with
    | false => exact add_output_glyphs_max_ligID hwf h
    | true =>
      rcases state_cases h with h | h
      · obtain ⟨b1, -, hc, -, -, -, -, -, -, -, -, hl, -⟩ := replace_inplace_ok hwf h
        rw [hl]
        exact copy_output_glyph_max_ligID hwf (by rw [hc]; rfl)
      · simp only [Op.run, hb_buffer_replace_output_glyph, if_true] at h
        cases hc : hb_buffer_copy_output_glyph b a with
        | undefined => simp [hc] at h
        | error b2 =>
          simp only [hc, Res.error.injEq] at h
          subst h
          exact copy_output_glyph_max_ligID hwf (by rw [hc]; rfl)
        | ok b2 =>
          simp only [hc] at h
          split at h
          · simp at h
          · split at h <;> simp at h
  | swap =>
    simp only [Op.run] at h
    split at h
    · simp only [Res.state, Option.some.injEq] at h
      subst h
      simp only [hb_buffer_swap, Op.isAllocateLigid]
      split <;> rfl
    · simp [Res.state] at h
  | clear_output =>
    simp only [Op.run, Res.state, Option.some.injEq] at h
    subst h; rfl
  | clear =>
    simp only [Op.run, Res.state, Option.some.injEq] at h
    subst h; rfl
  | clear_positions p =>
    simp only [Op.isAllocateLigid, Bool.false_eq_true, if_false]
    simp only [Op.run, hb_buffer_clear_positions] at h
    split at h
    · simp only [Res.state, Option.some.injEq] at h
      subst h; rfl
    · split at h
      · simp only [Res.state, Option.some.injEq] at h
        subst h; rfl
      · split at h
        · simp [Res.state] at h
        · split at h
          · simp only [Res.state, Option.some.injEq] at h
            subst h; rfl
          · simp [Res.state] at h
  | allocate_ligid =>
    simp only [Op.run, Res.state, Option.some.injEq] at h
    subst h; rfl

theorem toUShort_small {x : Nat} (h : x ≤ 65535) : toUShort x = x := by
  unfold toUShort
  omega

theorem runOps_append (b : HB_BufferRec) (ops1 ops2 : List Op) :
    runOps b (ops1 ++ ops2) = (runOps b ops1).bind (fun b1 => runOps b1 ops2) := by
  induction ops1 generalizing b with
  | nil => rfl
  | cons op ops ih =>
    simp only [List.cons_append, runOps]
    cases (op.run b).state with
    | none => rfl
    | some b1 => exact ih b1

theorem allocatedIds_append {b b1 : HB_BufferRec} (ops1 ops2 : List Op)
    (h : runOps b ops1 = some b1) :
    allocatedIds b (ops1 ++ ops2) = allocatedIds b ops1 ++ allocatedIds b1 ops2 := by
  induction ops1 generalizing b with
  | nil =>
    simp only [runOps, Option.some.injEq] at h
    subst h; rfl
  | cons op ops ih =>
    simp only [runOps] at h
    simp only [List.cons_append, allocatedIds]
    cases hs : (op.run b).state with
    | none => simp [hs] at h
    | some b2 =>
      simp only [hs] at h
      have := ih h
      simp only [List.append_assoc]
      exact congrArg _ this

theorem withLigid_self (b : HB_BufferRec) : withLigid b b.max_ligID = b := rfl

theorem runOps_replicate_allocate_ligid (n : Nat) :
    ∀ b : HB_BufferRec, b.max_ligID + n ≤ 65535 →
      runOps b (List.replicate n Op.allocate_ligid) = some (withLigid b (b.max_ligID + n)) := by
  induction n with
  | zero => intro b _; rfl
  | succ n ih =>
    intro b h
    simp only [List.replicate_succ, runOps, Op.run, Res.state]
    have h1 : (hb_buffer_allocate_ligid b).2 = withLigid b (b.max_ligID + 1) := by
      simp only [hb_buffer_allocate_ligid, withLigid, toUShort_small (by omega : b.max_ligID + 1 ≤ 65535)]
    rw [h1, ih (withLigid b (b.max_ligID + 1)) (by simp only [withLigid]; omega)]
    simp only [withLigid]
    congr 2
    omega

/-- While the counter does not pass `65535`, the state after a sequence of
calls has counted the `hb_buffer_allocate_ligid` calls exactly. -/
theorem runOps_max_ligID (ops : List Op) :
    ∀ b b' : HB_BufferRec, WF b → runOps b ops = some b' →
      b.max_ligID + ops.countP Op.isAllocateLigid ≤ 65535 →
      b'.max_ligID = b.max_ligID + ops.countP Op.isAllocateLigid := by
  induction ops with
  | nil =>
    intro b b' _ h _
    simp only [runOps, Option.some.injEq] at h
    subst h; simp
  | cons op ops ih =>
    intro b b' hwf h hle
    simp only [runOps] at h
    cases hs : (op.run b).state with
    | none => simp [hs] at h
    | some b1 =>
      simp only [hs] at h
      have hm := step_max_ligID hwf op hs
      have hwf1 := step_WF hwf op hs
      simp only [List.countP_cons] at hle ⊢
      cases hop : op.isAllocateLigid
      · simp only [hop, Bool.false_eq_true, if_false, Nat.add_zero] at hm hle ⊢
        rw [ih b1 b' hwf1 h (by omega), hm]
      · simp only [hop, if_true] at hm hle ⊢
        rw [toUShort_small (by omega)] at hm
        rw [ih b1 b' hwf1 h (by omega), hm]
        omega

/-- While the counter does not pass `65535`, the ids handed out are above the
counter and strictly increasing. -/
theorem allocatedIds_increasing (ops : List Op) :
    ∀ b : HB_BufferRec, WF b → b.max_ligID + ops.countP Op.isAllocateLigid ≤ 65535 →
      (allocatedIds b ops).Pairwise (· < ·) ∧ ∀ x ∈ allocatedIds b ops, b.max_ligID < x := by
  induction ops with
  | nil => intro b _ _; simp [allocatedIds]
  | cons op ops ih =>
    intro b hwf hle
    simp only [allocatedIds]
    cases hs : (op.run b).state with
    | none => simp
    | some b1 =>
      simp only []
      have hm := step_max_ligID hwf op hs
      have hwf1 := step_WF hwf op hs
      simp only [List.countP_cons] at hle
      cases hop : op.isAllocateLigid
      · simp only [hop, Bool.false_eq_true, if_false, Nat.add_zero] at hm hle
        obtain ⟨h1, h2⟩ := ih b1 hwf1 (by omega)
        simp only [Bool.false_eq_true, if_false, List.nil_append]
        exact ⟨h1, fun x hx => by have := h2 x hx; omega⟩
      · simp only [hop, if_true] at hm hle
        rw [toUShort_small (by omega)] at hm
        obtain ⟨h1, h2⟩ := ih b1 hwf1 (by omega)
        have hid : (hb_buffer_allocate_ligid b).1 = b.max_ligID + 1 := by
          simp only [hb_buffer_allocate_ligid, toUShort_small (by omega : b.max_ligID + 1 ≤ 65535)]
        simp only [if_true, hid, List.singleton_append, List.pairwise_cons, List.mem_cons]
        refine ⟨⟨fun x hx => by have := h2 x hx; omega, h1⟩, fun x hx => ?_⟩
        rcases hx with rfl | hx
        · omega
        · have := h2 x hx; omega

/-- C12, as stated, fails: on a new buffer the 65535th call of
`hb_buffer_allocate_ligid` returns `65535` and the 65536th returns `0`, so the
ids of 65536 calls in a row are not strictly increasing. -/
theorem allocate_ligid_wraps :
    runOps hb_buffer_new (List.replicate 65534 Op.allocate_ligid)
      = some (withLigid hb_buffer_new 65534) ∧
    (hb_buffer_allocate_ligid (withLigid hb_buffer_new 65534)).1 = 65535 ∧
    (hb_buffer_allocate_ligid (withLigid hb_buffer_new 65534)).2 = withLigid hb_buffer_new 65535 ∧
    (hb_buffer_allocate_ligid (withLigid hb_buffer_new 65535)).1 = 0 ∧
    ¬ (allocatedIds hb_buffer_new (List.replicate 65536 Op.allocate_ligid)).Pairwise (· < ·) := by
  have hrun := runOps_replicate_allocate_ligid 65534 hb_buffer_new (by decide)
  refine ⟨hrun, rfl, rfl, rfl, fun hp => ?_⟩
  have hsplit : List.replicate 65536 Op.allocate_ligid
      = List.replicate 65534 Op.allocate_ligid ++ [Op.allocate_ligid, Op.allocate_ligid] := by
    rw [show (65536 : Nat) = 65534 + 2 from rfl, List.replicate_add]
    rfl
  rw [hsplit, allocatedIds_append _ _ hrun] at hp
  have hlast : allocatedIds (withLigid hb_buffer_new (hb_buffer_new.max_ligID + 65534))
      [Op.allocate_ligid, Op.allocate_ligid] = [65535, 0] := rfl
  rw [hlast] at hp
  have := (List.pairwise_append.1 hp).2.1
  simp at this

/-- C12, amended: for every buffer satisfying the representation invariant and
every sequence of public calls during which the 16-bit counter does not pass
`65535` (on a new buffer: at most 65535 calls of `hb_buffer_allocate_ligid`),
the ids returned by the `hb_buffer_allocate_ligid` calls of the sequence are
strictly increasing and pairwise distinct. -/
theorem allocate_ligid_increasing (b : HB_BufferRec) (ops : List Op) (hwf : WF b)
    (h : b.max_ligID + ops.countP Op.isAllocateLigid ≤ 65535) :
    (allocatedIds b ops).Pairwise (· < ·) ∧ (allocatedIds b ops).Nodup := by
  have hp := (allocatedIds_increasing ops b hwf h).1
  exact ⟨hp, hp.imp (fun h => Nat.ne_of_lt h)⟩

theorem allocate_ligid_increasing_witness :
    WF hb_buffer_new ∧
    hb_buffer_new.max_ligID +
      List.countP Op.isAllocateLigid
        [Op.allocate_ligid, Op.add_glyph 10 0 0 ensureOk, Op.allocate_ligid, Op.clear,
         Op.allocate_ligid] ≤ 65535 ∧
    allocatedIds hb_buffer_new
      [Op.allocate_ligid, Op.add_glyph 10 0 0 ensureOk, Op.allocate_ligid, Op.clear,
       Op.allocate_ligid] = [1, 2, 3] ∧
    ((allocatedIds hb_buffer_new
      [Op.allocate_ligid, Op.add_glyph 10 0 0 ensureOk, Op.allocate_ligid, Op.clear,
       Op.allocate_ligid]).Pairwise (· < ·) ∧
     (allocatedIds hb_buffer_new
      [Op.allocate_ligid, Op.add_glyph 10 0 0 ensureOk, Op.allocate_ligid, Op.clear,
       Op.allocate_ligid]).Nodup) :=
  ⟨new_WF, by decide, rfl,
    allocate_ligid_increasing hb_buffer_new
      [Op.allocate_ligid, Op.add_glyph 10 0 0 ensureOk, Op.allocate_ligid, Op.clear,
       Op.allocate_ligid] new_WF (by decide)⟩

theorem runOps_append_of {b b1 b2 : HB_BufferRec} {ops1 ops2 : List Op}
    (h1 : runOps b ops1 = some b1) (h2 : runOps b1 ops2 = some b2) :
    runOps b (ops1 ++ ops2) = some b2 := by
  rw [runOps_append, h1]
  exact h2

theorem threeGlyphs_run : runOps hb_buffer_new appendThree = some threeGlyphs := rfl

/-- C20: the 65535th call of `hb_buffer_allocate_ligid` on a buffer created by
`hb_buffer_new` (whatever other public calls come in between) returns `0xFFFF`;
when that id is passed as the `ligID` argument of a successful
`hb_buffer_add_output_glyphs`, every produced glyph has the `ligID` of the input
glyph at `in_pos`, as for the inherit value. -/
theorem allocated_ligid_is_inherit_value (ops : List Op) (b b' : HB_BufferRec)
    (num_in num_out : Nat) (glyph_data : List Nat) (component : Nat) (a : EnsureAlloc)
    (d : Alloc HB_GlyphItemRec) (hrun : runOps hb_buffer_new ops = some b)
    (hcount : ops.countP Op.isAllocateLigid = 65534) (hpos : b.in_pos < b.in_length)
    (h : hb_buffer_add_output_glyphs (hb_buffer_allocate_ligid b).2 num_in num_out glyph_data
      component (hb_buffer_allocate_ligid b).1 a d = .ok b') :
    (hb_buffer_allocate_ligid b).1 = 0xFFFF ∧
    ∃ cur, b.inGlyph b.in_pos = some cur ∧
      ∀ i, i < num_out → ∃ g, b'.outGlyph (b.out_pos + i) = some g ∧ g.ligID = cur.ligID := by
  have hwf : WF b := reachable_WF ⟨ops, hrun⟩
  have hm : b.max_ligID = 65534 := by
    have := runOps_max_ligID ops hb_buffer_new b new_WF hrun (by rw [hcount]; decide)
    rw [hcount] at this
    simpa [hb_buffer_new] using this
  have hid : (hb_buffer_allocate_ligid b).1 = 0xFFFF := by
    simp only [hb_buffer_allocate_ligid, hm]
    rfl
  refine ⟨hid, ?_⟩
  rw [hid] at h
  obtain ⟨-, -, -, -, -, -, -, ⟨cur, hcur, hout⟩, -, -⟩ :=
    add_output_glyphs_ok (allocate_ligid_WF hwf) h
  refine ⟨cur, hcur (lt_of_lt_of_le hpos hwf.in_le), fun i hi => ?_⟩
  obtain ⟨g, -, hw⟩ := hout i hi
  exact ⟨_, hw, by simp⟩

theorem allocated_ligid_is_inherit_value_witness :
    runOps hb_buffer_new (appendThree ++ List.replicate 65534 Op.allocate_ligid)
      = some (withLigid threeGlyphs 65534) ∧
    List.countP Op.isAllocateLigid (appendThree ++ List.replicate 65534 Op.allocate_ligid)
      = 65534 ∧
    (withLigid threeGlyphs 65534).in_pos < (withLigid threeGlyphs 65534).in_length ∧
    hb_buffer_add_output_glyphs (hb_buffer_allocate_ligid (withLigid threeGlyphs 65534)).2
      2 1 [55] 0xFFFF (hb_buffer_allocate_ligid (withLigid threeGlyphs 65534)).1 ensureOk allocOk
      = .ok ligatureInherited ∧
    ligatureInherited.outGlyph 0 = some ⟨55, 0, 0, 0, 0, HB_GLYPH_PROPERTIES_UNKNOWN⟩ ∧
    ((hb_buffer_allocate_ligid (withLigid threeGlyphs 65534)).1 = 0xFFFF ∧
     ∃ cur, (withLigid threeGlyphs 65534).inGlyph (withLigid threeGlyphs 65534).in_pos
        = some cur ∧
      ∀ i, i < 1 → ∃ g, ligatureInherited.outGlyph ((withLigid threeGlyphs 65534).out_pos + i)
        = some g ∧ g.ligID = cur.ligID) :=
  have hrun : runOps hb_buffer_new (appendThree ++ List.replicate 65534 Op.allocate_ligid)
      = some (withLigid threeGlyphs 65534) := by
    exact runOps_append_of threeGlyphs_run
      (runOps_replicate_allocate_ligid 65534 threeGlyphs (by decide))
  have hcount : List.countP Op.isAllocateLigid
      (appendThree ++ List.replicate 65534 Op.allocate_ligid) = 65534 := by
    exact (List.countP_append _ _ _).trans (by rw [List.countP_replicate]; rfl)
  ⟨hrun, hcount, by decide, rfl, rfl,
    allocated_ligid_is_inherit_value
      (appendThree ++ List.replicate 65534 Op.allocate_ligid) (withLigid threeGlyphs 65534)
      ligatureInherited 2 1 [55] 0xFFFF ensureOk allocOk hrun hcount (by decide) rfl⟩

/-! ## Calls whose allocations succeed -/

theorem realloc_error {m : Mem} {p : Ptr} {n : Nat} {o : Alloc HB_GlyphItemRec}
    {x : Mem × Ptr} (h : REALLOC_ARRAY m p n o = .error x) : o.ok = false := by
  unfold REALLOC_ARRAY at h
  cases hok : o.ok
  · rfl
  · cases p with
    | none => simp [hok] at h
    | some a =>
      simp only [hok, if_true] at h
      split at h <;> simp at h

theorem ensureStrings_error {b b' : HB_BufferRec} {n : Nat} {a : EnsureAlloc}
    (h : ensureStrings b n a = .error b') : a.in_string.ok = false ∨ a.alt_string.ok = false := by
  unfold ensureStrings at h
  split at h
  · simp at h
  · next x hx => exact Or.inl (realloc_error hx)
  · simp only [] at h
    split at h
    · split at h
      · simp at h
      · next x hx => exact Or.inr (realloc_error hx)
      · simp at h
    · split at h
      · split at h
        · simp at h
        · next x hx => exact Or.inr (realloc_error hx)
        · simp at h
      · simp at h

theorem ensure_succeeds {b : HB_BufferRec} (hwf : WF b) (size : Nat) {a : EnsureAlloc}
    (ha : a.succeeds) : ∃ b', hb_buffer_ensure b size a = .ok b' := by
  have hspec := ensure_spec hwf size a
  cases hr : hb_buffer_ensure b size a with
  | ok b' => exact ⟨b', rfl⟩
  | undefined => rw [hr] at hspec; exact hspec.elim
  | error b' =>
    exfalso
    obtain ⟨hp, hi, hal⟩ := ha
    have key : ∀ b1 n, ensureStrings b1 n a ≠ .error b' := by
      intro b1 n hn
      rcases ensureStrings_error hn with h | h
      · rw [hi] at h; cases h
      · rw [hal] at h; cases h
    unfold hb_buffer_ensure at hr
    simp only [hp, if_true] at hr
    split at hr
    · split at hr
      · exact key _ _ hr
      · exact key _ _ hr
    · simp at hr

theorem add_glyph_succeeds {b : HB_BufferRec} (hwf : WF b) (g p cl : Nat) {a : EnsureAlloc}
    (ha : a.succeeds) : ∃ b', hb_buffer_add_glyph b g p cl a = .ok b' := by
  obtain ⟨b1, he⟩ := ensure_succeeds hwf (b.in_length + 1) ha
  obtain ⟨hwf1, hk, hsz, -⟩ := ensure_ok hwf he
  have hpos : 0 < b1.allocated := by omega
  obtain ⟨cells, hc, hl⟩ :=
    hwf1.in_cap (fun h => by have := hwf1.in_null.1 h; omega)
  obtain ⟨m2, hm2⟩ := write_defined (i := b1.in_length) hc
    (by have := hk.in_length; omega) ⟨g, p, cl, 0, 0, HB_GLYPH_PROPERTIES_UNKNOWN⟩
  refine ⟨{ b1 with mem := m2, in_length := b1.in_length + 1 }, ?_⟩
  simp only [hb_buffer_add_glyph, he, hm2]

theorem appendAll_spec (xs : List Append) :
    ∀ b : HB_BufferRec, WF b → (∀ x ∈ xs, x.a.succeeds) →
      ∃ b', appendAll b xs = .ok b' ∧ WF b' ∧ b'.in_length = b.in_length + xs.length ∧
        (∀ i, i < b.in_length → b'.inGlyph i = b.inGlyph i) ∧
        ∀ j (hj : j < xs.length),
          b'.inGlyph (b.in_length + j) = some (xs.get ⟨j, hj⟩).glyph := by
  induction xs with
  | nil =>
    intro b hwf _
    exact ⟨b, rfl, hwf, rfl, fun _ _ => rfl, fun j hj => absurd hj (by simp)⟩
  | cons x xs ih =>
    intro b hwf hok
    obtain ⟨b1, h1⟩ := add_glyph_succeeds hwf x.glyph_index x.properties x.cluster
      (hok x (List.mem_cons_self _ _))
    obtain ⟨hwf1, hil1, -, -, -, -, -, hnew1, hold1⟩ := add_glyph_ok hwf h1
    obtain ⟨b', hrun, hwf', hil', hold', hnew'⟩ :=
      ih b1 hwf1 (fun y hy => hok y (List.mem_cons_of_mem _ hy))
    refine ⟨b', by simp only [appendAll, h1]; exact hrun, hwf', ?_, ?_, ?_⟩
    · simp only [List.length_cons]; omega
    · intro i hi
      rw [hold' i (by omega), hold1 i hi]
    · intro j hj
      cases j with
      | zero =>
        rw [Nat.add_zero, hold' _ (by omega), hnew1]
        rfl
      | succ k =>
        simp only [List.length_cons] at hj
        have := hnew' k (by omega)
        have e : b1.in_length + k = b.in_length + (k + 1) := by omega
        rw [e] at this
        rw [this]
        rfl

/-- C14: appending a list of glyphs to a new buffer with `hb_buffer_add_glyph`,
every allocation succeeding, returns `HB_Err_Ok` at every call and yields
`in_length` equal to the length of the list and, at every index, the input
glyph `(glyph_index, properties, cluster, 0, 0, HB_GLYPH_PROPERTIES_UNKNOWN)`;
and on every buffer satisfying the representation invariant a single
successful `hb_buffer_add_glyph` leaves the input glyphs already there, both
cursors, `out_length` and `separate_out` unchanged. -/
theorem append_input_glyphs (xs : List Append) (hok : ∀ x ∈ xs, x.a.succeeds) :
    (∃ b, appendAll hb_buffer_new xs = .ok b ∧ b.in_length = xs.length ∧
      ∀ i (hi : i < xs.length), b.inGlyph i = some (xs.get ⟨i, hi⟩).glyph) ∧
    (∀ (b b' : HB_BufferRec) (g p cl : Nat) (a : EnsureAlloc), WF b →
      hb_buffer_add_glyph b g p cl a = .ok b' →
      b'.in_length = b.in_length + 1 ∧
      (∀ i, i < b.in_length → ∃ x, b.inGlyph i = some x ∧ b'.inGlyph i = some x) ∧
      b'.in_pos = b.in_pos ∧ b'.out_pos = b.out_pos ∧ b'.out_length = b.out_length ∧
      b'.separate_out = b.separate_out) := by
  constructor
  · obtain ⟨b, hrun, -, hil, -, hnew⟩ := appendAll_spec xs hb_buffer_new new_WF hok
    refine ⟨b, hrun, by simpa [hb_buffer_new] using hil, fun i hi => ?_⟩
    have := hnew i hi
    simpa [hb_buffer_new] using this
  · intro b b' g p cl a hwf h
    obtain ⟨-, hil, hol, hip, hop, hsep, -, -, hold⟩ := add_glyph_ok hwf h
    refine ⟨hil, fun i hi => ?_, hip, hop, hol, hsep⟩
    obtain ⟨x, hx⟩ := hwf.inGlyph_some (lt_of_lt_of_le hi hwf.in_le)
    exact ⟨x, hx, by rw [hold i hi, hx]⟩

theorem append_input_glyphs_witness :
    (∀ x ∈ threeAppends, x.a.succeeds) ∧
    appendAll hb_buffer_new threeAppends = .ok threeGlyphs ∧
    threeGlyphs.inGlyph 1 = some ⟨11, 0, 1, 0, 0, HB_GLYPH_PROPERTIES_UNKNOWN⟩ ∧
    ((∃ b, appendAll hb_buffer_new threeAppends = .ok b ∧
      b.in_length = threeAppends.length ∧
      ∀ i (hi : i < threeAppends.length),
        b.inGlyph i = some (threeAppends.get ⟨i, hi⟩).glyph) ∧
    (∀ (b b' : HB_BufferRec) (g p cl : Nat) (a : EnsureAlloc), WF b →
      hb_buffer_add_glyph b g p cl a = .ok b' →
      b'.in_length = b.in_length + 1 ∧
      (∀ i, i < b.in_length → ∃ x, b.inGlyph i = some x ∧ b'.inGlyph i = some x) ∧
      b'.in_pos = b.in_pos ∧ b'.out_pos = b.out_pos ∧ b'.out_length = b.out_length ∧
      b'.separate_out = b.separate_out)) :=
  have hok : ∀ x ∈ threeAppends, x.a.succeeds := by
    intro x hx
    simp only [threeAppends, List.mem_cons, List.mem_singleton, List.not_mem_nil,
      or_false] at hx
    rcases hx with rfl | rfl | rfl <;> exact ⟨rfl, rfl, rfl⟩
  ⟨hok, rfl, rfl, append_input_glyphs threeAppends hok⟩

/-! ## The glyph class of produced glyphs -/

theorem classified_WF : WF classified :=
  ⟨by decide, by decide, rfl, ⟨fun h => absurd h (by decide), fun h => absurd h (by decide)⟩,
    fun _ => ⟨_, rfl, by decide⟩, fun _ => ⟨_, rfl, by decide⟩, fun _ => (by decide),
    fun _ => (by decide), fun _ => (by decide), fun _ h => (by cases h)⟩

/-- C15, as stated, fails: on a separated buffer whose current input glyph has
the class `2` in `gproperties`, a successful `hb_buffer_copy_output_glyph`
writes an output glyph of class `2`, not `HB_GLYPH_PROPERTIES_UNKNOWN`, and so
does `hb_buffer_replace_output_glyph` with `inplace = TRUE`. -/
theorem copy_keeps_computed_class :
    WF classified ∧ classified.in_pos < classified.in_length ∧
    classified.inGlyph classified.in_pos = some ⟨12, 0, 2, 0, 0, 2⟩ ∧
    hb_buffer_copy_output_glyph classified ensureOk = .ok classifiedCopied ∧
    classifiedCopied.outGlyph classified.out_pos = some ⟨12, 0, 2, 0, 0, 2⟩ ∧
    hb_buffer_replace_output_glyph classified 99 true ensureOk allocOk
      = .ok classifiedReplaced ∧
    classifiedReplaced.outGlyph classified.out_pos = some ⟨99, 0, 2, 0, 0, 2⟩ ∧
    (2 : Nat) ≠ HB_GLYPH_PROPERTIES_UNKNOWN :=
  ⟨classified_WF, by decide, rfl, rfl, rfl, rfl, rfl, by decide⟩

/-- C15, amended: for every buffer satisfying the representation invariant with
`in_pos < in_length`, every output glyph written by a successful
`hb_buffer_add_output_glyphs`, and the one written by a successful
`hb_buffer_replace_output_glyph` with `inplace = FALSE`, has
`gproperties = HB_GLYPH_PROPERTIES_UNKNOWN`, whatever the class of the consumed
glyph was; a successful `hb_buffer_copy_output_glyph` (the cursors being equal
when the buffer is not separated) leaves the output glyph with the
`gproperties` of the consumed input glyph. -/
theorem production_computed_class (b b' : HB_BufferRec) (a : EnsureAlloc)
    (d : Alloc HB_GlyphItemRec) (hwf : WF b) (hpos : b.in_pos < b.in_length) :
    (∀ num_in num_out glyph_data component ligID,
      hb_buffer_add_output_glyphs b num_in num_out glyph_data component ligID a d = .ok b' →
      ∀ i, i < num_out → ∃ g, b'.outGlyph (b.out_pos + i) = some g ∧
        g.gproperties = HB_GLYPH_PROPERTIES_UNKNOWN) ∧
    (∀ glyph_index, hb_buffer_replace_output_glyph b glyph_index false a d = .ok b' →
      ∃ g, b'.outGlyph b.out_pos = some g ∧ g.gproperties = HB_GLYPH_PROPERTIES_UNKNOWN) ∧
    ((b.separate_out = false → b.in_pos = b.out_pos) →
      hb_buffer_copy_output_glyph b a = .ok b' →
      ∃ cur g, b.inGlyph b.in_pos = some cur ∧ b'.outGlyph b.out_pos = some g ∧
        g.gproperties = cur.gproperties) := by
  have hlt := lt_of_lt_of_le hpos hwf.in_le
  have hprod : ∀ num_in num_out glyph_data component ligID,
      hb_buffer_add_output_glyphs b num_in num_out glyph_data component ligID a d = .ok b' →
      ∀ i, i < num_out → ∃ g, b'.outGlyph (b.out_pos + i) = some g ∧
        g.gproperties = HB_GLYPH_PROPERTIES_UNKNOWN := by
    intro k m ids co li h i hi
    obtain ⟨-, -, -, -, -, -, -, ⟨cur, -, hout⟩, -, -⟩ := add_output_glyphs_ok hwf h
    obtain ⟨g, -, hw⟩ := hout i hi
    exact ⟨_, hw, rfl⟩
  refine ⟨hprod, fun gi h => ?_, fun hcur h => ?_⟩
  · rw [replace_not_inplace_eq] at h
    exact hprod 1 1 _ _ _ h 0 (by omega)
  · obtain ⟨cur, hg⟩ := hwf.inGlyph_some hlt
    obtain ⟨-, -, -, -, -, -, -, -, hsepc, haliasc, -, -⟩ := copy_output_glyph_ok hwf h
    refine ⟨cur, cur, hg, ?_, rfl⟩
    cases hsep : b.separate_out
    · rw [← hcur hsep, haliasc hsep _ hlt, hg]
    · rw [hsepc hsep hlt, hg]

theorem production_computed_class_witness :
    WF classified ∧ classified.in_pos < classified.in_length ∧
    hb_buffer_replace_output_glyph classified 99 false ensureOk allocOk
      = .ok classifiedProduced ∧
    classifiedProduced.outGlyph classified.out_pos
      = some ⟨99, 0, 2, 0, 0, HB_GLYPH_PROPERTIES_UNKNOWN⟩ ∧
    (∃ g, classifiedProduced.outGlyph classified.out_pos = some g ∧
      g.gproperties = HB_GLYPH_PROPERTIES_UNKNOWN) :=
  ⟨classified_WF, by decide, rfl, rfl,
    (production_computed_class classified classifiedProduced ensureOk allocOk classified_WF
      (by decide)).2.1 99 rfl⟩

/-! ## Accesses stay inside the arrays -/

theorem ensureStrings_ok_allocated {b b' : HB_BufferRec} {n : Nat} {a : EnsureAlloc}
    (h : ensureStrings b n a = .ok b') : b'.allocated = n := by
  unfold ensureStrings at h
  split at h
  · simp at h
  · simp at h
  · simp only [] at h
    split at h
    · split at h
      · simp at h
      · simp at h
      · simp only [Res.ok.injEq] at h
        subst h; rfl
    · split at h
      · split at h
        · simp at h
        · simp at h
        · simp only [Res.ok.injEq] at h
          subst h; rfl
      · simp only [Res.ok.injEq] at h
        subst h; rfl

theorem ensure_ok_allocated {b b' : HB_BufferRec} {size : Nat} {a : EnsureAlloc}
    (hsz : b.allocated < size) (h : hb_buffer_ensure b size a = .ok b') :
    b'.allocated = grow size b.allocated := by
  unfold hb_buffer_ensure at h
  rw [if_pos hsz] at h
  simp only [] at h
  split at h
  · split at h
    · exact ensureStrings_ok_allocated h
    · simp at h
  · exact ensureStrings_ok_allocated h

theorem grow_step {size allocated : Nat} (hsz : allocated < size) :
    allocated + allocated / 2 + 8 ≤ grow size allocated := by
  unfold grow
  cases size with
  | zero => omega
  | succ k =>
    simp only [growLoop]
    rw [if_pos hsz]
    have h := growLoop_mono k (k + 1) (allocated + ((allocated >>> 1) + 8))
    have e : allocated >>> 1 = allocated / 2 := by
      rw [Nat.shiftRight_eq_div_pow]
    rw [e] at h ⊢
    omega

theorem capacity65_run : runOps hb_buffer_new appendThirtyNine = some capacity65 := rfl

/-- C17, as stated, fails: the capacity `65` is reached from a new buffer by 39
appends, and `hb_buffer_ensure` asked for `66` cells then sets `allocated` to
`65 + 32 + 8 = 105`, which is less than `1.5 * 65 + 8 = 105.5`. -/
theorem ensure_growth_rounds_down :
    runOps hb_buffer_new appendThirtyNine = some capacity65 ∧
    capacity65.allocated = 65 ∧ capacity65.allocated < 66 ∧
    hb_buffer_ensure capacity65 66 ensureOk = .ok capacity105 ∧
    capacity105.allocated = 105 ∧
    ((capacity105.allocated : ℚ) < 3 / 2 * (capacity65.allocated : ℚ) + 8) :=
  ⟨rfl, rfl, by decide, rfl, rfl, by
    rw [show capacity105.allocated = 105 from rfl, show capacity65.allocated = 65 from rfl]
    norm_num⟩

/-- C17, amended: for every old capacity `a` and every requested size `n > a`, a
successful `hb_buffer_ensure` sets `allocated` to a capacity `c` with
`c ≥ a + ⌊a / 2⌋ + 8`, hence `c ≥ 1.5 * a + 7.5` in exact rational arithmetic,
and `c ≥ n`. -/
theorem ensure_growth (b b' : HB_BufferRec) (size : Nat) (a : EnsureAlloc)
    (hsz : b.allocated < size) (h : hb_buffer_ensure b size a = .ok b') :
    b.allocated + b.allocated / 2 + 8 ≤ b'.allocated ∧
    (3 / 2 * (b.allocated : ℚ) + 15 / 2 ≤ (b'.allocated : ℚ)) ∧
    size ≤ b'.allocated := by
  have hal := ensure_ok_allocated hsz h
  have h1 := grow_step hsz
  have h2 := grow_ge size b.allocated
  rw [← hal] at h1 h2
  refine ⟨h1, ?_, h2⟩
  have h3 : 3 * b.allocated + 15 ≤ 2 * b'.allocated := by omega
  have h4 : ((3 * b.allocated + 15 : ℕ) : ℚ) ≤ ((2 * b'.allocated : ℕ) : ℚ) := by
    exact_mod_cast h3
  push_cast at h4
  linarith

theorem ensure_growth_witness :
    capacity65.allocated < 66 ∧ hb_buffer_ensure capacity65 66 ensureOk = .ok capacity105 ∧
    (capacity65.allocated + capacity65.allocated / 2 + 8 ≤ capacity105.allocated ∧
     (3 / 2 * (capacity65.allocated : ℚ) + 15 / 2 ≤ (capacity105.allocated : ℚ)) ∧
     66 ≤ capacity105.allocated) :=
  ⟨by decide, rfl, ensure_growth capacity65 capacity105 66 ensureOk (by decide) rfl⟩

theorem failingCalls_run : runOps hb_buffer_new failingCalls = some ensureFailed := rfl

/-- C18: after the calls `failingCalls` on a new buffer, the last of which
returns an allocation error from `hb_buffer_ensure` (the primary array was
resized, the request for the secondary array failed), the primary array holds
`105` cells, the secondary array `8`, and `allocated` is `8`. -/
theorem ensure_failure_breaks_lockstep :
    runOps hb_buffer_new failingCalls = some ensureFailed ∧
    Op.run ligatureFormed (Op.add_output_glyphs 1 100 [] 0 0 ensureAltFails allocOk)
      = .error ensureFailed ∧
    (ensureFailed.mem.block ensureFailed.in_string).map List.length = some 105 ∧
    (ensureFailed.mem.block ensureFailed.alt_string).map List.length = some 8 ∧
    ensureFailed.allocated = 8 :=
  ⟨rfl, rfl, rfl, rfl, rfl⟩

/-- C16: after every call of a sequence of public calls on a new buffer,
whether the calls return `HB_Err_Ok` or an allocation error, `out_string` is
`in_string` when `separate_out` is false and `alt_string` when it is true;
conversely an output view that is the existing primary array means
`separate_out` is false and one that is the existing secondary array means it
is true; the view is never an array that is both; and when `separate_out` is
true the secondary array exists and is not the primary array. -/
theorem output_view_backing (ops : List Op) (b : HB_BufferRec)
    (h : runOps hb_buffer_new ops = some b) :
    (b.separate_out = false → b.out_string = b.in_string) ∧
    (b.separate_out = true → b.out_string = b.alt_string) ∧
    (b.out_string = b.in_string → b.in_string ≠ none → b.separate_out = false) ∧
    (b.out_string = b.alt_string → b.alt_string ≠ none → b.separate_out = true) ∧
    ¬ (b.out_string ≠ none ∧ b.out_string = b.in_string ∧ b.out_string = b.alt_string) ∧
    (b.separate_out = true →
      b.alt_string ≠ none ∧ b.alt_string ≠ b.in_string ∧
      ∃ cells, b.mem.block b.alt_string = some cells) := by
  have hwf : WF b := reachable_WF ⟨ops, h⟩
  have hout := hwf.out_eq
  refine ⟨fun hs => hwf.out_eq_in hs, fun hs => by simpa [hs] using hout, fun he hne => ?_,
    fun he hne => ?_, fun hboth => ?_, fun hs => ?_⟩
  · cases hs : b.separate_out
    · rfl
    · exact absurd he (hwf.out_ne_in hs)
  · cases hs : b.separate_out
    · have := hwf.out_eq_in hs
      exact absurd (he.symm.trans this) (hwf.alt_ne hne)
    · rfl
  · obtain ⟨hne, h1, h2⟩ := hboth
    have halt : b.alt_string ≠ none := by rw [← h2]; exact hne
    exact hwf.alt_ne halt (h2.symm.trans h1)
  · have halt := hwf.sep_alt hs
    obtain ⟨cells, hc, -⟩ := hwf.alt_cap halt
    exact ⟨halt, hwf.alt_ne halt, cells, hc⟩

theorem output_view_backing_witness :
    runOps hb_buffer_new failingCalls = some ensureFailed ∧
    ensureFailed.separate_out = true ∧
    ((ensureFailed.separate_out = false → ensureFailed.out_string = ensureFailed.in_string) ∧
    (ensureFailed.separate_out = true → ensureFailed.out_string = ensureFailed.alt_string) ∧
    (ensureFailed.out_string = ensureFailed.in_string → ensureFailed.in_string ≠ none →
      ensureFailed.separate_out = false) ∧
    (ensureFailed.out_string = ensureFailed.alt_string → ensureFailed.alt_string ≠ none →
      ensureFailed.separate_out = true) ∧
    ¬ (ensureFailed.out_string ≠ none ∧ ensureFailed.out_string = ensureFailed.in_string ∧
        ensureFailed.out_string = ensureFailed.alt_string) ∧
    (ensureFailed.separate_out = true →
      ensureFailed.alt_string ≠ none ∧ ensureFailed.alt_string ≠ ensureFailed.in_string ∧
      ∃ cells, ensureFailed.mem.block ensureFailed.alt_string = some cells)) :=
  ⟨rfl, rfl, output_view_backing failingCalls ensureFailed rfl⟩

/-- On a buffer that is not separated and holds no output, `n` rounds of
`hb_buffer_copy_output_glyph` and `hb_buffer_clear_output` move the input
cursor `n` places on and change nothing else: the copy does not read the input
array when the output view is the input array. -/
theorem copyClearRounds_run (n : Nat) : ∀ (b : HB_BufferRec), b.separate_out = false →
    b.out_string = b.in_string → b.out_pos = 0 → b.out_length = 0 → 1 ≤ b.allocated →
    runOps b (copyClearRounds n) = some { b with in_pos := b.in_pos + n } := by
  induction n with
  | zero => intro b _ _ _ _ _; rfl
  | succ n ih =>
    intro b hsep hout hop hol hcap
    have hcopy := copy_aliased ensureOk hsep (by omega : b.out_pos + 1 ≤ b.allocated)
    have hstep : runOps b (copyClearRounds (n + 1))
        = runOps { b with in_pos := b.in_pos + 1 } (copyClearRounds n) := by
      show (match (hb_buffer_copy_output_glyph b ensureOk).state with
        | none => none
        | some b1 => runOps b1 (Op.clear_output :: copyClearRounds n)) = _
      rw [hcopy]
      show runOps (hb_buffer_clear_output _) (copyClearRounds n) = _
      congr 1
      cases b
      simp only [hb_buffer_clear_output] at *
      subst hsep hout hop hol
      rfl
    rw [hstep]
    rw [ih { b with in_pos := b.in_pos + 1 } hsep hout hop hol hcap]
    simp only [Nat.add_assoc, Nat.add_comm 1 n]

theorem cursorPastInt_run :
    runOps hb_buffer_new (appendThree ++ copyClearRounds 2147483648) = some cursorPastInt :=
  runOps_append_of threeGlyphs_run
    (copyClearRounds_run 2147483648 threeGlyphs rfl rfl rfl rfl (by decide))

/-- C7: `hb_buffer_swap` does not exchange a cursor of `2 ^ 31`.  The buffer
`cursorPastInt` (three input glyphs in arrays of eight cells, input cursor
`2 ^ 31`, output cursor `0`) is what `2 ^ 31` rounds of
`hb_buffer_copy_output_glyph` and `hb_buffer_clear_output` leave of the buffer
of three appended glyphs, and it satisfies the representation invariant.
`hb_buffer_swap` on it sets `in_pos` to the former `out_pos`, but `out_pos` to
`2 ^ 64 - 2 ^ 31` and not to the former `in_pos`: the `int` temporary `tmp_pos`
holds `- 2 ^ 31`.  The lengths, which are small, are exchanged. -/
theorem swap_narrows_cursor :
    runOps hb_buffer_new (appendThree ++ copyClearRounds 2147483648) = some cursorPastInt ∧
    WF cursorPastInt ∧
    cursorPastInt.in_length = 3 ∧ cursorPastInt.allocated = 8 ∧
    cursorPastInt.in_pos = 2147483648 ∧ cursorPastInt.out_pos = 0 ∧
    int_of_FT_ULong cursorPastInt.in_pos = -2147483648 ∧
    Op.run cursorPastInt Op.swap = .ok (hb_buffer_swap cursorPastInt) ∧
    (hb_buffer_swap cursorPastInt).in_pos = cursorPastInt.out_pos ∧
    (hb_buffer_swap cursorPastInt).out_pos = 18446744071562067968 ∧
    (hb_buffer_swap cursorPastInt).out_pos ≠ cursorPastInt.in_pos ∧
    (hb_buffer_swap cursorPastInt).in_length = cursorPastInt.out_length ∧
    (hb_buffer_swap cursorPastInt).out_length = cursorPastInt.in_length :=
  ⟨cursorPastInt_run, reachable_WF ⟨_, cursorPastInt_run⟩, rfl, rfl, rfl, rfl, by decide, rfl,
    rfl, by decide, by decide, rfl, by decide⟩

/-- C8: two calls of `hb_buffer_swap` in a row do not give back a cursor of
`2 ^ 31`.  On the buffer `cursorPastInt` (three input glyphs in arrays of eight
cells, input cursor `2 ^ 31`, output cursor `0`, reached from a new buffer by
public calls) the first call stores `2 ^ 64 - 2 ^ 31` in `out_pos` through the
`int` temporary `tmp_pos`, and the second call moves that value to `in_pos`:
the buffer after the two calls has its former lengths, output cursor, flag,
pointers and memory, and another input cursor. -/
theorem swap_swap_narrows_cursor :
    runOps hb_buffer_new (appendThree ++ copyClearRounds 2147483648) = some cursorPastInt ∧
    WF cursorPastInt ∧
    cursorPastInt.in_pos = 2147483648 ∧
    runOps cursorPastInt [Op.swap, Op.swap]
      = some (hb_buffer_swap (hb_buffer_swap cursorPastInt)) ∧
    (hb_buffer_swap (hb_buffer_swap cursorPastInt)).in_pos = 18446744071562067968 ∧
    hb_buffer_swap (hb_buffer_swap cursorPastInt)
      = { cursorPastInt with in_pos := 18446744071562067968 } ∧
    hb_buffer_swap (hb_buffer_swap cursorPastInt) ≠ cursorPastInt :=
  ⟨cursorPastInt_run, reachable_WF ⟨_, cursorPastInt_run⟩, rfl, rfl, by decide, rfl, fun h => absurd (congrArg HB_BufferRec.in_pos h) (by decide)⟩

end HB
